import Mathlib

/-!
Verification of the skeletal-graph engine (SkeletalGraph.hpp).

This file gives a shallow embedding of the graph data model and of the
operations the verified claims are about, and proves (or refutes) each
claim against that embedding.

Modelling conventions:
* `GRfloat` is modelled by `ℚ` (exact arithmetic; the claims under
  scrutiny are about counts, indices, clamping and exact positions, not
  about rounding).
* `GRuint` is modelled by `ℕ`; the only place where 32-bit wrap-around
  can matter (the BFS cost increment) performs an explicit `% 2^32`.
* Boost vertex/edge descriptors are modelled by `ℕ` identifiers that are
  never reused (`nextVertexId` / `nextEdgeId` counters).  A possibly-null
  descriptor is an `Option ℕ`.
* The vertex list and the edge list keep insertion order, matching the
  `listS`-backed boost adjacency list (`add_vertex` / `add_edge` append;
  removal keeps the order of the remaining entries).  `in_edges v` /
  `out_edges v` of boost's bidirectional graph iterate the incident edges
  in insertion order, which equals the order of the global edge list
  filtered by target resp. source.
* The external Curve / vector-math modules (Curve.hpp, not part of the
  sources) are modelled from the spec where needed; every such definition
  carries a doc comment starting with "Modelled from the spec".
-/

namespace PantaGraph

/-- A 3-component vector over exact scalars (models `Vector3f`). -/
abbrev Vec3 : Type := ℚ × ℚ × ℚ

/-- Componentwise vector addition (models `Vector3f::operator+`). -/
def vadd (a b : Vec3) : Vec3 := (a.1 + b.1, a.2.1 + b.2.1, a.2.2 + b.2.2)

/-- Componentwise vector subtraction (models `Vector3f::operator-`). -/
def vsub (a b : Vec3) : Vec3 := (a.1 - b.1, a.2.1 - b.2.1, a.2.2 - b.2.2)

/-- Scalar multiplication (models `Vector3f::operator*`). -/
def vscale (a : Vec3) (s : ℚ) : Vec3 := (a.1 * s, a.2.1 * s, a.2.2 * s)

/-- Modelled from the spec: `Vector3f::normalize` (vector-math module,
not part of the sources) returns the unit-length vector in the direction
of its argument.  Unit length is not representable over `ℚ`, so the model
keeps the (direction-preserving) unnormalized vector; no verified claim
inspects the numeric value of a tangent. -/
def normalize (a : Vec3) : Vec3 := a

/-- A curve sample: position and tangent (models `PointTangent`). -/
abbrev PointTangent : Type := Vec3 × Vec3

/-- A deformable spline curve is an ordered list of point-tangent samples
(models `DeformableSplineCurve`; `size()` is `List.length`). -/
abbrev Curve : Type := List PointTangent

/-- `DEFAULT_VERTEX_RADIUS` (1.f). -/
def DEFAULT_VERTEX_RADIUS : ℚ := 1

/-- `MAX_ALLOWED_VERTEX_RADIUS` (10000.f). -/
def MAX_ALLOWED_VERTEX_RADIUS : ℚ := 10000

/-- The `GRuint` infinity sentinel `(GRuint)-1 = 2^32 - 1`. -/
def GRuintMax : ℕ := 4294967295

/-- Per-vertex data (models `struct VertexProperties`; the raw
`void*` parent pointers become `Option ℕ` vertex ids). -/
structure VertexProperties where
  position : Vec3 := (0, 0, 0)
  radius : ℚ := DEFAULT_VERTEX_RADIUS
  is_part_of_cycle : Bool := false
  is_in_spanning_tree : Bool := false
  cycle_parent : Option ℕ := none
  BFS_parent : Option ℕ := none
  BFS_path_cost : ℕ := GRuintMax
deriving DecidableEq, Repr

instance : Inhabited VertexProperties := ⟨{}⟩

/-- Modelled from the spec: the default-constructed
`DeformableSplineCurve` (Curve module, not part of the sources); the spec
requires curves to be non-empty with minimum useful size 2, so the
default is a two-sample curve at the origin.  No verified claim inspects
a default curve. -/
def defaultCurve : Curve := [((0,0,0),(0,0,0)), ((0,0,0),(0,0,0))]

/-- Per-edge data (models `struct EdgeProperties`). -/
structure EdgeProperties where
  curve : Curve := defaultCurve
  is_part_of_cycle : Bool := false
deriving DecidableEq, Repr

instance : Inhabited EdgeProperties := ⟨{}⟩

/-- A stored edge: its descriptor, its source and target vertex
descriptors (kept by the boost graph store) and its properties. -/
structure EdgeEntry where
  id : ℕ
  src : ℕ
  tgt : ℕ
  prop : EdgeProperties
deriving DecidableEq, Repr

/-- The graph state (models `class SkeletalGraph`): the vertex table and
edge table of the boost adjacency list in insertion order, the two
descriptor counters, and the aggregate `edge_spline_count_`. -/
structure SkeletalGraph where
  nextVertexId : ℕ := 0
  nextEdgeId : ℕ := 0
  vertices : List (ℕ × VertexProperties) := []
  edges : List EdgeEntry := []
  edge_spline_count : ℕ := 0
deriving DecidableEq, Repr

/-- The freshly constructed empty graph (`SkeletalGraph()`). -/
def emptyGraph : SkeletalGraph := {}

namespace SkeletalGraph

/-- The list of live vertex descriptors, in storage order. -/
def ids (g : SkeletalGraph) : List ℕ := g.vertices.map (·.1)

/-- `vertex_count()`. -/
def vertex_count (g : SkeletalGraph) : ℕ := g.vertices.length

/-- `edge_count()`. -/
def edge_count (g : SkeletalGraph) : ℕ := g.edges.length

/-- `get_vertex(v)`: the properties stored for descriptor `v`.  Reading a
dead descriptor is undefined behaviour in the source; the model returns
the default properties there, and every theorem about a dead-descriptor-
free run supplies liveness hypotheses. -/
def getV (g : SkeletalGraph) (v : ℕ) : VertexProperties :=
  (((g.vertices.find? (fun pr => pr.1 == v)).map (·.2)).getD default)

/-- Look up a stored edge by descriptor. -/
def findE (g : SkeletalGraph) (e : ℕ) : Option EdgeEntry :=
  g.edges.find? (fun ed => ed.id == e)

/-- `boost::in_edges(v)`: the stored edges with target `v`, in insertion
order. -/
def in_edges (g : SkeletalGraph) (v : ℕ) : List EdgeEntry :=
  g.edges.filter (fun ed => ed.tgt == v)

/-- `boost::out_edges(v)`: the stored edges with source `v`, in insertion
order. -/
def out_edges (g : SkeletalGraph) (v : ℕ) : List EdgeEntry :=
  g.edges.filter (fun ed => ed.src == v)

/-- `degree(v) = in_degree + out_degree` (a self-loop counts twice). -/
def degree (g : SkeletalGraph) (v : ℕ) : ℕ :=
  (g.in_edges v).length + (g.out_edges v).length

/-- `boost::edge(u, v).second/.first`: the first stored edge from `u` to
`v`, if any. -/
def first_edge_between (g : SkeletalGraph) (u v : ℕ) : Option EdgeEntry :=
  g.edges.find? (fun ed => ed.src == u && ed.tgt == v)

/-- The sum of `curve.size()` over all stored edges (the quantity that
invariant I4 claims `edge_spline_count` tracks). -/
def splineSum (g : SkeletalGraph) : ℕ :=
  (g.edges.map (fun ed => ed.prop.curve.length)).sum

/-- Update the properties of vertex `v` in place. -/
def updV (g : SkeletalGraph) (v : ℕ) (f : VertexProperties → VertexProperties) :
    SkeletalGraph :=
  { g with vertices := g.vertices.map (fun pr => if pr.1 = v then (pr.1, f pr.2) else pr) }

/-- Update the properties of edge `e` in place. -/
def updE (g : SkeletalGraph) (e : ℕ) (f : EdgeProperties → EdgeProperties) :
    SkeletalGraph :=
  { g with edges := g.edges.map (fun ed => if ed.id = e then { ed with prop := f ed.prop } else ed) }

/-- `add_vertex(properties)`: appends a vertex, returns its descriptor. -/
def add_vertex (g : SkeletalGraph) (props : VertexProperties) : ℕ × SkeletalGraph :=
  (g.nextVertexId,
   { g with nextVertexId := g.nextVertexId + 1,
            vertices := g.vertices ++ [(g.nextVertexId, props)] })

/-- `clear_vertex(v)`: removes every incident edge, decrementing
`edge_spline_count_` by each removed curve size, and returns the removed
edge descriptors (in-edges first, then out-edges, like the source's two
loops; a self-loop is reported by both loops, and its curve size is
subtracted twice, exactly as in the source). -/
def clear_vertex (g : SkeletalGraph) (v : ℕ) : List ℕ × SkeletalGraph :=
  let inE := g.in_edges v
  let outE := g.out_edges v
  let removed := inE.map (·.id) ++ outE.map (·.id)
  let dec := (inE.map (fun ed => ed.prop.curve.length)).sum
           + (outE.map (fun ed => ed.prop.curve.length)).sum
  (removed,
   { g with edge_spline_count := g.edge_spline_count - dec,
            edges := g.edges.filter (fun ed => !(ed.tgt == v || ed.src == v)) })

/-- `remove_vertex(v)`: for a non-null descriptor, clears the vertex and
then removes it from the vertex table, returning the removed edges. -/
def remove_vertex (g : SkeletalGraph) (v : Option ℕ) : List ℕ × SkeletalGraph :=
  match v with
  | none => ([], g)
  | some v =>
    let (removed, g1) := g.clear_vertex v
    (removed, { g1 with vertices := g1.vertices.filter (fun pr => !(pr.1 == v)) })

/-- `add_edge(from, to, properties)`: fails on a null endpoint, otherwise
increments `edge_spline_count_` by the curve size, appends the edge, and
then overwrites the new edge's `is_part_of_cycle` with the conjunction of
its endpoints' marks (source line 435). -/
def add_edge (g : SkeletalGraph) (from_ to_ : Option ℕ) (props : EdgeProperties) :
    (Option ℕ × Bool) × SkeletalGraph :=
  match from_, to_ with
  | some f, some t =>
    let g1 := { g with edge_spline_count := g.edge_spline_count + props.curve.length }
    let flag := (g1.getV f).is_part_of_cycle && (g1.getV t).is_part_of_cycle
    ((some g1.nextEdgeId, true),
     { g1 with nextEdgeId := g1.nextEdgeId + 1,
               edges := g1.edges ++ [⟨g1.nextEdgeId, f, t, { props with is_part_of_cycle := flag }⟩] })
  | _, _ => ((none, false), g)

/-- The two-argument convenience `add_edge(from, to)`: first adds 2 to
`edge_spline_count_` (source line 442), then builds the two-point
straight curve and delegates to the property overload (which adds the
curve size again). -/
def add_edge_straight (g : SkeletalGraph) (from_ to_ : ℕ) :
    (Option ℕ × Bool) × SkeletalGraph :=
  let g1 := { g with edge_spline_count := g.edge_spline_count + 2 }
  let position_from := (g1.getV from_).position
  let position_to := (g1.getV to_).position
  let dir := normalize (vsub position_to position_from)
  g1.add_edge (some from_) (some to_)
    { curve := [(position_from, dir), (position_to, dir)], is_part_of_cycle := false }

/-- `remove_edge(e)`: for a live descriptor, decrements
`edge_spline_count_`, removes the edge, and then auto-removes each
endpoint whose total degree (computed before the removal) was 1 —
skipping the removal whenever the vertex table momentarily holds exactly
one vertex.  Returns the auto-removed source/target descriptors. -/
def remove_edge (g : SkeletalGraph) (e : Option ℕ) :
    (Option ℕ × Option ℕ) × SkeletalGraph :=
  match e with
  | none => ((none, none), g)
  | some eid =>
    match g.findE eid with
    | none => ((none, none), g)
    | some ed =>
      if (g.first_edge_between ed.src ed.tgt).isSome then
        -- remove_source / remove_target are the degree checks made
        -- before the edge removal
        let g1 := { g with edge_spline_count := g.edge_spline_count - ed.prop.curve.length,
                           edges := g.edges.filter (fun x => !(x.id == eid)) }
        let r1 : Option ℕ × SkeletalGraph :=
          if g.degree ed.src = 1 ∧ g1.vertex_count ≠ 1 then
            (some ed.src, { g1 with vertices := g1.vertices.filter (fun pr => !(pr.1 == ed.src)) })
          else (none, g1)
        let r2 : Option ℕ × SkeletalGraph :=
          if g.degree ed.tgt = 1 ∧ r1.2.vertex_count ≠ 1 then
            (some ed.tgt, { r1.2 with vertices := r1.2.vertices.filter (fun pr => !(pr.1 == ed.tgt)) })
          else (none, r1.2)
        ((r1.1, r2.1), r2.2)
      else ((none, none), g)

/-- `get_edge_radius(e, segment_index)`: interpolates between the
harmonic mean of the endpoint radii (at sample 0) and the target radius
(at the last sample), after clamping the index to the last sample. -/
def get_edge_radius (g : SkeletalGraph) (e : ℕ) (segment_index : ℕ) : ℚ :=
  match g.findE e with
  | none => 0
  | some ed =>
    let r1 := (g.getV ed.src).radius
    let r2 := (g.getV ed.tgt).radius
    let r_start := (2 * r1 * r2) / (r1 + r2)
    let r_end := r2
    let length := ed.prop.curve.length
    let i := min segment_index (length - 1)
    (1 - (i : ℚ) / ((length : ℚ) - 1)) * (r_start - r_end) + r_end

/-- `COLLAPSE_OPTION`. -/
inductive COLLAPSE_OPTION | SOURCE | TARGET | MIDPOINT
deriving DecidableEq, Repr

/-- Replace the last sample of a curve by position `p` with tangent
pointing from the before-last sample to `p` (collapse of an in-edge,
source line 938). -/
def setBackSample (c : Curve) (p : Vec3) : Curve :=
  c.set (c.length - 1) (p, normalize (vsub p (c.getD (c.length - 2) default).1))

/-- Replace the first sample of a curve by position `p` with tangent
pointing from `p` to the old first sample's position (collapse of an
out-edge, source line 953; the right-hand side reads `curve[0]` before
the assignment overwrites it). -/
def setFrontSample (c : Curve) (p : Vec3) : Curve :=
  c.set 0 (p, normalize (vsub (c.getD 0 default).1 p))

/-- `split_edge_at(e, segment_index, p)`: throws `invalid_argument` when
`segment_index >= curve.size() - 1`; otherwise inserts a middle vertex at
`p` (radius from `get_edge_radius`), builds the left and right half
curves, adds the two edges, copies the cycle flag, and removes the
original edge.  The curve layout follows the source's
`SplineCurve(a, b)` + `add_middle_point` loop (Modelled from the spec,
4.2.2, for the external `add_middle_point`: the middle points are
inserted in order between the two endpoint samples). -/
def split_edge_at (g : SkeletalGraph) (e : ℕ) (segment_index : ℕ) (p : Vec3) :
    Except Unit ((ℕ × (ℕ × ℕ)) × SkeletalGraph) :=
  match g.findE e with
  | none => .error ()
  | some ed =>
    let edge_curve := ed.prop.curve
    if edge_curve.length - 1 ≤ segment_index then .error ()
    else
      let av := g.add_vertex { position := p, radius := g.get_edge_radius e segment_index }
      let new_vertex := av.1
      let g1 := av.2
      let source_pt := edge_curve.headD default
      let target_pt := edge_curve.getLastD default
      let new_target_pt : PointTangent :=
        (p, normalize (vsub p (edge_curve.getD segment_index default).1))
      let new_source_pt : PointTangent :=
        (p, normalize (vsub (edge_curve.getD (segment_index + 1) default).1 p))
      let first_half0 : Curve :=
        source_pt :: ((edge_curve.drop 1).take segment_index ++ [new_target_pt])
      let first_half :=
        if 3 ≤ first_half0.length then
          first_half0.set (first_half0.length - 2)
            ((first_half0.getD (first_half0.length - 2) default).1,
             normalize (vsub (first_half0.getLastD default).1
                             (first_half0.getD (first_half0.length - 3) default).1))
        else first_half0
      let second_half0 : Curve :=
        new_source_pt ::
          ((edge_curve.drop (segment_index + 1)).take (edge_curve.length - 1 - (segment_index + 1))
            ++ [target_pt])
      let second_half :=
        if 3 ≤ second_half0.length then
          second_half0.set 1
            ((second_half0.getD 1 default).1,
             normalize (vsub (second_half0.getD 2 default).1 (second_half0.getD 0 default).1))
        else second_half0
      let left_edge := g1.nextEdgeId
      let g2 := (g1.add_edge (some ed.src) (some new_vertex) { curve := first_half }).2
      let right_edge := g2.nextEdgeId
      let g3 := (g2.add_edge (some new_vertex) (some ed.tgt) { curve := second_half }).2
      let g4 := g3.updE left_edge (fun pr => { pr with is_part_of_cycle := ed.prop.is_part_of_cycle })
      let g5 := g4.updE right_edge (fun pr => { pr with is_part_of_cycle := ed.prop.is_part_of_cycle })
      let g6 := (g5.remove_edge (some e)).2
      .ok ((new_vertex, (left_edge, right_edge)), g6)

/-- The body of the first edge-adding loop of `collapse_edge` (source
line 966): re-attach a queued former in-edge of the dropped vertex to
the kept vertex, recording the new descriptor. -/
def collapse_add_in (to_keep : ℕ) (acc : List ℕ × SkeletalGraph) (sp : ℕ × EdgeProperties) :
    List ℕ × SkeletalGraph :=
  let r := acc.2.add_edge (some sp.1) (some to_keep) sp.2
  (acc.1 ++ [r.1.1.getD 0], r.2)

/-- The body of the second edge-adding loop of `collapse_edge` (source
line 970): re-attach a queued former out-edge of the dropped vertex. -/
def collapse_add_out (to_keep : ℕ) (acc : List ℕ × SkeletalGraph) (tp : ℕ × EdgeProperties) :
    List ℕ × SkeletalGraph :=
  let r := acc.2.add_edge (some to_keep) (some tp.1) tp.2
  (acc.1 ++ [r.1.1.getD 0], r.2)

/-- `collapse_edge(e, option)`: throws `invalid_argument` when the edge
does not exist; otherwise chooses the kept and dropped endpoints (for
`MIDPOINT` the source is kept and repositioned to the midpoint), queues a
re-attached copy of every incident edge of the dropped vertex other than
`e` whose other endpoint differs from the kept vertex (with the junction
sample reset), clears the dropped vertex, adds the queued edges, and
finally repositions the kept vertex.  Returns
`((dropped vertex, cleared edges), (added edges, new state))`.  The
dropped vertex itself is cleared but NOT removed from the vertex table
(`clear_vertex`, source line 961). -/
def collapse_edge (g : SkeletalGraph) (e : ℕ) (opt : COLLAPSE_OPTION) :
    Except Unit ((ℕ × List ℕ) × (List ℕ × SkeletalGraph)) :=
  match g.findE e with
  | none => .error ()
  | some ed =>
    if (g.first_edge_between ed.src ed.tgt).isSome then
      let to_keep := if opt = .TARGET then ed.tgt else ed.src
      let to_remove := if opt = .TARGET then ed.src else ed.tgt
      let new_position :=
        if opt = .MIDPOINT then
          vscale (vadd (g.getV ed.src).position (g.getV ed.tgt).position) (1/2)
        else (g.getV to_keep).position
      let inQ :=
        ((g.in_edges to_remove).filter (fun x => !(x.id == e) && !(x.src == to_keep))).map
          (fun x => (x.src, { x.prop with curve := setBackSample x.prop.curve new_position }))
      let outQ :=
        ((g.out_edges to_remove).filter (fun x => !(x.id == e) && !(x.tgt == to_keep))).map
          (fun x => (x.tgt, { x.prop with curve := setFrontSample x.prop.curve new_position }))
      let cv := g.clear_vertex to_remove
      let step1 := inQ.foldl (collapse_add_in to_keep) ([], cv.2)
      let step2 := outQ.foldl (collapse_add_out to_keep) step1
      let g2 := step2.2.updV to_keep (fun pr => { pr with position := new_position })
      .ok ((to_remove, cv.1), (step2.1, g2))
    else .error ()

/-- The 32-bit wrap of the BFS cost increment (`current_cost + 1` on a
32-bit `GRuint`). -/
def u32succ (c : ℕ) : ℕ := (c + 1) % 4294967296

/-- Set every vertex's BFS marks back to their defaults.  This is both
the entry reset and the exit cleanup loop of `shortest_path` (source
lines 319-326 and 409-415). -/
def resetBFS (g : SkeletalGraph) : SkeletalGraph :=
  { g with vertices := g.vertices.map (fun pr =>
      (pr.1, { pr.2 with BFS_path_cost := GRuintMax, BFS_parent := none })) }

/-- One neighbour check of the BFS (the body of the in-edge and out-edge
loops, source lines 355-390): skip the neighbour recorded as the current
vertex's parent; push the neighbour if it has no parent yet; and if its
cost exceeds `current_cost + 1`, lower its cost, set its parent, and
raise the found flag when the neighbour is the sought vertex. -/
def bfsVisit (from_ cur : ℕ) (c : ℕ) (st : SkeletalGraph × List ℕ × Bool) (nbr : ℕ) :
    SkeletalGraph × List ℕ × Bool :=
  let g := st.1
  if (g.getV cur).BFS_parent ≠ some nbr then
    let q1 := if (g.getV nbr).BFS_parent = none then st.2.1 ++ [nbr] else st.2.1
    if u32succ c < (g.getV nbr).BFS_path_cost then
      (g.updV nbr (fun p => { p with BFS_path_cost := u32succ c, BFS_parent := some cur }),
       q1, st.2.2 || (nbr == from_))
    else (g, q1, st.2.2)
  else st

/-- One iteration of the BFS loop: read the current cost once, then visit
the sources of the in-edges and the targets of the out-edges in order
(the queue and marks are threaded through; the edge tables never change
during the search). -/
def bfsIter (from_ : ℕ) (g : SkeletalGraph) (cur : ℕ) (q : List ℕ) (found : Bool) :
    SkeletalGraph × List ℕ × Bool :=
  let c := (g.getV cur).BFS_path_cost
  let st1 := ((g.in_edges cur).map (·.src)).foldl (bfsVisit from_ cur c) (g, q, found)
  ((g.out_edges cur).map (·.tgt)).foldl (bfsVisit from_ cur c) st1

/-- The BFS loop of `shortest_path`; the fuel is the source's iteration
cap `vertex_count() * 2` (the vertex count never changes during the
search, so the cap is a constant). -/
def bfsLoop (from_ : ℕ) : ℕ → SkeletalGraph → List ℕ → Bool → SkeletalGraph × Bool
  | 0, g, _, found => (g, found)
  | _ + 1, g, [], found => (g, found)
  | fuel + 1, g, cur :: rest, found =>
    let st := bfsIter from_ g cur rest found
    bfsLoop from_ fuel st.1 st.2.1 st.2.2

/-- The back-tracking loop of `shortest_path` (source lines 402-405):
follow `BFS_parent` links until a parentless vertex.  The source loop is
unbounded; the model carries fuel, and the BFS invariants proved below
show that `2 * vertex_count + 2` steps always suffice (each link strictly
decreases `BFS_path_cost`, which the search bounds by the iteration
cap). -/
def parentChain (g : SkeletalGraph) : ℕ → Option ℕ → List ℕ
  | _, none => []
  | 0, some p => [p]
  | fuel + 1, some p => p :: parentChain g fuel (g.getV p).BFS_parent

/-- `shortest_path(from, to)`: early return `{from}` when the endpoints
coincide; otherwise reset the marks, run the BFS rooted at `to`, and on
success back-track from `from` and clear the marks.  On failure the
source throws `invalid_argument` BEFORE the cleanup loop, so the error
branch keeps the dirty marks. -/
def shortest_path (g : SkeletalGraph) (from_ to_ : ℕ) :
    Except Unit (List ℕ) × SkeletalGraph :=
  if from_ = to_ then (.ok [from_], g)
  else
    let g1 := (g.resetBFS).updV to_ (fun p => { p with BFS_path_cost := 0 })
    let r := bfsLoop from_ (2 * g.vertex_count) g1 [to_] false
    if r.2 then
      let path := from_ :: parentChain r.1 (2 * g.vertex_count + 2) ((r.1.getV from_).BFS_parent)
      (.ok path, r.1.resetBFS)
    else (.error (), r.1)

/-- The loop of `explore_from_vertex`: pop the queue front; if it is not
yet in the spanning tree, mark it and push every in-edge source and
out-edge target (unconditionally, as the source does).  The fuel is the
iteration cap `vertex_count() * 2`; the final queue is returned so that
a cut-short exploration is observable. -/
def exploreLoop : ℕ → SkeletalGraph → List ℕ → SkeletalGraph × List ℕ
  | 0, g, q => (g, q)
  | _ + 1, g, [] => (g, [])
  | fuel + 1, g, cur :: rest =>
    if (g.getV cur).is_in_spanning_tree then exploreLoop fuel g rest
    else
      let g1 := g.updV cur (fun p => { p with is_in_spanning_tree := true })
      exploreLoop fuel g1
        (rest ++ (g1.in_edges cur).map (·.src) ++ (g1.out_edges cur).map (·.tgt))

/-- `explore_from_vertex(start)`. -/
def explore_from_vertex (g : SkeletalGraph) (start : ℕ) : SkeletalGraph × List ℕ :=
  exploreLoop (g.vertex_count * 2) g [start]

/-- Set every vertex's `is_in_spanning_tree` back to false (the cleanup
loop of `count_connected_components`). -/
def clearSpanning (g : SkeletalGraph) : SkeletalGraph :=
  { g with vertices := g.vertices.map (fun pr =>
      (pr.1, { pr.2 with is_in_spanning_tree := false })) }

/-- The outer loop of `count_connected_components`: walk the vertex list
(captured before any exploration; explorations never change it), explore
from each vertex not yet in the spanning tree and count the
explorations.  The third component instruments the run with a flag that
records whether every exploration drained its queue within the iteration
cap; it influences nothing. -/
def cccLoop (g : SkeletalGraph) (order : List ℕ) : ℕ × SkeletalGraph × Bool :=
  order.foldl
    (fun acc v =>
      if (acc.2.1.getV v).is_in_spanning_tree then acc
      else
        let r := acc.2.1.explore_from_vertex v
        (acc.1 + 1, r.1, acc.2.2 && r.2.isEmpty))
    (0, g, true)

/-- `count_connected_components()`: 0 on the empty graph, otherwise the
number of explorations started by the outer loop; the spanning-tree
marks are cleared on exit. -/
def count_connected_components (g : SkeletalGraph) : ℕ × SkeletalGraph :=
  if g.vertex_count = 0 then (0, g)
  else
    let r := cccLoop g g.ids
    (r.1, clearSpanning r.2.1)

/-- True when no exploration of `count_connected_components` on `g` is
cut short by the `vertex_count() * 2` iteration cap. -/
def ccc_drained (g : SkeletalGraph) : Bool :=
  (g.vertex_count == 0) || (cccLoop g g.ids).2.2

end SkeletalGraph

/-- One line of the tagged-line persistence format, with the result of
the corresponding `sscanf` attached: a `none` payload models a line whose
tag matched but whose field failed to parse, `otherLine` a line matching
no tag at all. -/
inductive FileLine
  | scaleLine (s : Option ℚ)
  | verticesOpen
  | verticesClose
  | vertexOpen
  | vertexClose
  | posLine (v : Option Vec3)
  | radiusLine (r : Option ℚ)
  | cycleLine (c : Option ℕ)
  | edgesOpen
  | edgesClose
  | edgeOpen
  | edgeClose
  | sourceLine (i : Option ℕ)
  | targetLine (i : Option ℕ)
  | curveOpen
  | curveClose
  | curvePointLine (v : Option Vec3)
  | otherLine
deriving DecidableEq, Repr

/-- Modelled from the spec: the `DeformableSplineCurve(DiscreteCurve)`
constructor (Curve module, not part of the sources).  The file stores
curves as discrete points only and tangents are recomputed on load; the
constructor rejects fewer than two points (the source catches that as an
exception).  Positions are kept verbatim; each tangent points towards
the next sample, the last one away from the previous sample. -/
def curveFromDiscrete (pts : List Vec3) : Option Curve :=
  if 2 ≤ pts.length then
    some ((List.range pts.length).map (fun k =>
      (pts.getD k (0,0,0),
       if k + 1 < pts.length then
         normalize (vsub (pts.getD (k+1) (0,0,0)) (pts.getD k (0,0,0)))
       else
         normalize (vsub (pts.getD k (0,0,0)) (pts.getD (k-1) (0,0,0))))))
  else none

/-- The parser state of `import_from_file` (source lines 1366-1523): the
graph being filled, the descriptor vector `vertices`, the block flags,
the per-entity accumulators, and a `halted` flag for the `break` taken
when the edge block starts with no vertices read. -/
structure ImportState where
  g : SkeletalGraph
  scale : ℚ := 1
  verts : List ℕ := []
  reading_vertices : Bool := false
  reading_edges : Bool := false
  reading_vertex : Bool := false
  reading_edge : Bool := false
  reading_curve : Bool := false
  v_props : VertexProperties := {}
  e_props : EdgeProperties := {}
  e_source_index : ℕ := 0
  e_target_index : ℕ := 0
  e_curve : List Vec3 := []
  halted : Bool := false
deriving DecidableEq, Repr

/-- One step of the import state machine: the translation of the
if/else-if chain of `import_from_file`, one source line at a time.  The
guards reproduce the source's nesting: the scale and the
vertices-open/close tags are matched unconditionally; inside the
vertices block every other line is interpreted as vertex data; the
edges-open/close tags are matched only outside the vertices block; and
inside an edge, lines between curve-open and curve-close are point
parses while source/target/cycle tags are matched outside them. -/
def importStep (st : ImportState) (l : FileLine) : ImportState :=
  if st.halted then st else
  match l with
  | .scaleLine s => { st with scale := s.getD st.scale }
  | .verticesOpen => { st with reading_vertices := true }
  | .verticesClose => { st with reading_vertices := false }
  | .vertexOpen =>
    if st.reading_vertices then { st with reading_vertex := true, v_props := {} } else st
  | .vertexClose =>
    if st.reading_vertices then
      let r := st.g.add_vertex st.v_props
      { st with reading_vertex := false, g := r.2, verts := st.verts ++ [r.1] }
    else st
  | .posLine v =>
    if st.reading_vertices && st.reading_vertex then
      { st with v_props := { st.v_props with position := v.getD (0,0,0) } }
    else st
  | .radiusLine r =>
    if st.reading_vertices && st.reading_vertex then
      match r with
      | some radius =>
        -- source lines 1428-1431: the parsed value is stored into
        -- v_props first; the following clamp of values above
        -- MAX_ALLOWED_VERTEX_RADIUS assigns the LOCAL variable only and
        -- never reaches the stored properties
        { st with v_props := { st.v_props with radius := radius } }
      | none => { st with v_props := { st.v_props with radius := DEFAULT_VERTEX_RADIUS } }
    else st
  | .cycleLine c =>
    if st.reading_vertices && st.reading_vertex then
      { st with v_props := { st.v_props with is_part_of_cycle := (c.getD 0) != 0 } }
    else if !st.reading_vertices && st.reading_edges && st.reading_edge && !st.reading_curve then
      match c with
      | some cv => { st with e_props := { st.e_props with is_part_of_cycle := cv != 0 } }
      | none => st
    else st
  | .edgesOpen =>
    if st.reading_vertices then st
    else { st with reading_edges := true, halted := st.verts.isEmpty }
  | .edgesClose =>
    if st.reading_vertices then st else { st with reading_edges := false }
  | .edgeOpen =>
    if !st.reading_vertices && st.reading_edges then
      { st with reading_edge := true, e_props := {},
                e_source_index := 0, e_target_index := 0, e_curve := [] }
    else st
  | .edgeClose =>
    if !st.reading_vertices && st.reading_edges then
      if st.e_source_index < st.verts.length ∧ st.e_target_index < st.verts.length then
        { st with reading_edge := false,
                  g := (st.g.add_edge (some (st.verts.getD st.e_source_index 0))
                                      (some (st.verts.getD st.e_target_index 0)) st.e_props).2 }
      else { st with reading_edge := false }
    else st
  | .curveOpen =>
    if !st.reading_vertices && st.reading_edges && st.reading_edge then
      { st with reading_curve := true }
    else st
  | .curveClose =>
    if !st.reading_vertices && st.reading_edges && st.reading_edge then
      match curveFromDiscrete st.e_curve with
      | some c => { st with reading_curve := false, e_props := { st.e_props with curve := c } }
      | none => { st with reading_curve := false }
    else st
  | .curvePointLine v =>
    if !st.reading_vertices && st.reading_edges && st.reading_edge && st.reading_curve then
      match v with
      | some p => { st with e_curve := st.e_curve ++ [p] }
      | none => st
    else st
  | .sourceLine i =>
    if !st.reading_vertices && st.reading_edges && st.reading_edge && !st.reading_curve then
      match i with
      | some n => { st with e_source_index := n }
      | none => st
    else st
  | .targetLine i =>
    if !st.reading_vertices && st.reading_edges && st.reading_edge && !st.reading_curve then
      match i with
      | some n => { st with e_target_index := n }
      | none => st
    else st
  | .otherLine => st

/-- `import_from_file`, over the line model: fold the state machine over
the lines, filling the given target graph. -/
def import_from_lines (lines : List FileLine) (g0 : SkeletalGraph) : ImportState :=
  lines.foldl importStep { g := g0 }

/-- The lines `export_to_file` writes for one vertex. -/
def exportVertexLines (props : VertexProperties) : List FileLine :=
  [.vertexOpen, .posLine (some props.position), .radiusLine (some props.radius),
   .cycleLine (some (if props.is_part_of_cycle then 1 else 0)), .vertexClose]

/-- The 0-based position of a vertex descriptor in the vertex table: the
index the export's `vertex_index_map` assigns to it. -/
def vidIndex (g : SkeletalGraph) (v : ℕ) : Option ℕ :=
  g.vertices.findIdx? (fun pr => pr.1 == v)

/-- The lines `export_to_file` writes for one edge; `none` models the
failure return taken when an endpoint is not in the index map. -/
def exportEdgeLines (g : SkeletalGraph) (ed : EdgeEntry) : Option (List FileLine) :=
  match vidIndex g ed.src, vidIndex g ed.tgt with
  | some si, some ti =>
    some ([.edgeOpen, .sourceLine (some si), .targetLine (some ti),
           .cycleLine (some (if ed.prop.is_part_of_cycle then 1 else 0)), .curveOpen]
          ++ ed.prop.curve.map (fun pt => .curvePointLine (some pt.1))
          ++ [.curveClose, .edgeClose])
  | _, _ => none

/-- `export_to_file`, over the line model: the scale line, the vertices
block in storage order, then the edges block in storage order with the
endpoint indices resolved through the index map; `none` models the
failure return. -/
def export_to_lines (g : SkeletalGraph) (scale : ℚ) : Option (List FileLine) := do
  let edgeBlocks ← g.edges.mapM (exportEdgeLines g)
  return [.scaleLine (some scale), .verticesOpen]
    ++ (g.vertices.map (fun pr => exportVertexLines pr.2)).flatten
    ++ [.verticesClose, .edgesOpen]
    ++ edgeBlocks.flatten
    ++ [.edgesClose]

/-- Well-formedness of a graph state: descriptors are unique and below
the counters, and every stored edge's endpoints are live.  Every state
reachable by the public operations from the empty graph satisfies it. -/
def WF (g : SkeletalGraph) : Prop :=
  g.ids.Nodup ∧
  (g.edges.map (·.id)).Nodup ∧
  (∀ pr ∈ g.vertices, pr.1 < g.nextVertexId) ∧
  (∀ ed ∈ g.edges, ed.id < g.nextEdgeId) ∧
  (∀ ed ∈ g.edges, ed.src ∈ g.ids ∧ ed.tgt ∈ g.ids)

instance (g : SkeletalGraph) : Decidable (WF g) := by
  unfold WF
  infer_instance

/-! ### Shared helper lemmas -/

theorem find_by_key_eq {α : Type} (key : α → ℕ) :
    ∀ (l : List α) (a : α), a ∈ l → (l.map key).Nodup →
      l.find? (fun x => key x == key a) = some a := by
  intro l
  induction l with
  | nil => intro a ha _; cases ha
  | cons b t ih =>
    intro a ha hnd
    have hnd' : key b ∉ t.map key ∧ (t.map key).Nodup := by
      rw [List.map_cons] at hnd; exact List.nodup_cons.mp hnd
    rcases List.mem_cons.mp ha with rfl | hat
    · simp [List.find?]
    · by_cases hk : key b = key a
      · exfalso
        have : key a ∈ t.map key := List.mem_map_of_mem key hat
        exact hnd'.1 (hk ▸ this)
      · have : (key b == key a) = false := by simpa using hk
        simp only [List.find?, this]
        exact ih a hat hnd'.2

theorem findE_of_mem (g : SkeletalGraph) (ed : EdgeEntry)
    (h : ed ∈ g.edges) (hnd : (g.edges.map (·.id)).Nodup) :
    g.findE ed.id = some ed := by
  unfold SkeletalGraph.findE
  exact find_by_key_eq (fun x => x.id) g.edges ed h hnd

theorem two_le_length_of_mem_of_mem_of_ne {α : Type} {l : List α} {a b : α}
    (ha : a ∈ l) (hb : b ∈ l) (hne : a ≠ b) : 2 ≤ l.length := by
  induction l with
  | nil => cases ha
  | cons c t ih =>
    rcases List.mem_cons.mp ha with rfl | hat
    · rcases List.mem_cons.mp hb with rfl | hbt
      · exact absurd rfl hne
      · have := List.length_pos_of_mem hbt
        simp only [List.length_cons]
        omega
    · have := List.length_pos_of_mem hat
      simp only [List.length_cons]
      omega

theorem mem_ids_filterV (l : List (ℕ × VertexProperties)) (x v : ℕ) :
    v ∈ (l.filter (fun pr => !(pr.1 == x))).map (·.1) ↔ (v ∈ l.map (·.1) ∧ v ≠ x) := by
  simp only [List.mem_map, List.mem_filter, Bool.not_eq_true', beq_eq_false_iff_ne, ne_eq]
  constructor
  · rintro ⟨pr, ⟨hm, hne⟩, rfl⟩
    exact ⟨⟨pr, hm, rfl⟩, hne⟩
  · rintro ⟨⟨pr, hm, rfl⟩, hne⟩
    exact ⟨pr, ⟨hm, hne⟩, rfl⟩

theorem filterV_length (l : List (ℕ × VertexProperties)) (x : ℕ)
    (hnd : (l.map (·.1)).Nodup) (hx : x ∈ l.map (·.1)) :
    (l.filter (fun pr => !(pr.1 == x))).length + 1 = l.length := by
  induction l with
  | nil => cases hx
  | cons a t ih =>
    have hnd' : a.1 ∉ t.map (·.1) ∧ (t.map (·.1)).Nodup := by
      rw [List.map_cons] at hnd; exact List.nodup_cons.mp hnd
    by_cases hax : a.1 = x
    · have hall : t.filter (fun pr => !(pr.1 == x)) = t := by
        apply List.filter_eq_self.mpr
        intro pr hpr
        have : pr.1 ≠ x := by
          intro hcon
          have hmm : pr.1 ∈ t.map (·.1) := List.mem_map_of_mem (·.1) hpr
          rw [hcon, ← hax] at hmm
          exact hnd'.1 hmm
        simpa using this
      simp [List.filter_cons, hax, hall]
    · have hxt : x ∈ t.map (·.1) := by
        rcases List.mem_map.mp hx with ⟨pr, hpr, he⟩
        rcases List.mem_cons.mp hpr with rfl | hmt
        · exact absurd he hax
        · exact he ▸ List.mem_map_of_mem (·.1) hmt
      have := ih (by simpa using hnd'.2) hxt
      simp only [List.filter_cons]
      have : (!(a.1 == x)) = true := by simpa using hax
      simp only [this, if_true, List.length_cons]
      omega

/-! ### Claim C1 -/

/-- Two vertices and one convenience-added edge: the minimal state built
by public operations that exercises `add_edge(from, to)`. -/
def C1graph : SkeletalGraph :=
  let a := emptyGraph.add_vertex { position := (0,0,0) }
  let b := a.2.add_vertex { position := (1,0,0) }
  (b.2.add_edge_straight a.1 b.1).2

/-- Claim C1 (code bug): after building two vertices and one edge with
the two-argument convenience `add_edge`, the aggregate
`edge_spline_count` is 4 while the sum of `curve.size()` over all edges
is 2: the convenience overload adds 2 up front (source line 442) and the
delegated property overload adds the curve size 2 again (source line
431), so the increment is 4, not the claimed 2, and invariant I4 is
broken on a reachable state. -/
theorem claim_C1_convenience_add_edge_double_counts :
    C1graph.edge_spline_count = 4 ∧ C1graph.splineSum = 2 ∧ C1graph.edge_count = 1 := by
  refine ⟨rfl, rfl, rfl⟩

/-! ### Claim C2 -/

/-- A vertex block whose first vertex has radius 20000 (parsing
successfully, above `MAX_ALLOWED_VERTEX_RADIUS`) and whose second vertex
has an unparsable radius line. -/
def C2lines : List FileLine :=
  [.verticesOpen,
   .vertexOpen, .radiusLine (some 20000), .vertexClose,
   .vertexOpen, .radiusLine none, .vertexClose,
   .verticesClose]

/-- Claim C2 (code bug): importing a vertex whose radius field parses as
20000 stores radius 20000, not the claimed clamped 1 — the source stores
the parsed value into the vertex properties first and then clamps only
the local variable (lines 1428-1431), so the clamp is dead code.  The
parse-failure fallback to the default radius 1 does hold (second
vertex). -/
theorem claim_C2_import_radius_clamp_is_dead :
    ((import_from_lines C2lines emptyGraph).g.vertices.map (fun pr => pr.2.radius))
      = [20000, DEFAULT_VERTEX_RADIUS] ∧
    MAX_ALLOWED_VERTEX_RADIUS < 20000 := by
  refine ⟨rfl, by norm_num [MAX_ALLOWED_VERTEX_RADIUS]⟩

/-! ### Claim C10 -/

/-- Claim C10 (confirmed): `get_edge_radius(e, segment_index)` clamps the
segment index to the last sample, so it is defined for every index and
never reads the curve out of range, and every out-of-range index yields
the value at the last sample, which is the target vertex's radius
`r_end = r2`. -/
theorem claim_C10_get_edge_radius_clamps (g : SkeletalGraph) (e : ℕ) (ed : EdgeEntry)
    (he : g.findE e = some ed) (hlen : 2 ≤ ed.prop.curve.length) :
    (∀ i, g.get_edge_radius e i
        = g.get_edge_radius e (min i (ed.prop.curve.length - 1))) ∧
    (∀ i, ed.prop.curve.length - 1 ≤ i →
        g.get_edge_radius e i = (g.getV ed.tgt).radius) := by
  constructor
  · intro i
    unfold SkeletalGraph.get_edge_radius
    rw [he]
    dsimp only
    rw [min_assoc, min_self]
  · intro i hi
    unfold SkeletalGraph.get_edge_radius
    rw [he]
    dsimp only
    rw [min_eq_right hi]
    have h1 : 1 ≤ ed.prop.curve.length := by omega
    have h2 : ((ed.prop.curve.length : ℚ) - 1) ≠ 0 := by
      have : (2:ℚ) ≤ (ed.prop.curve.length : ℚ) := by exact_mod_cast hlen
      linarith
    rw [Nat.cast_sub h1, Nat.cast_one, div_self h2]
    ring

/-- A two-vertex, one-edge graph with radii 3 and 5 and a 3-sample
curve, for the C10 witness. -/
def C10edge : EdgeEntry :=
  ⟨0, 0, 1, { curve := [((0,0,0),(0,0,0)), ((1,0,0),(0,0,0)), ((2,0,0),(0,0,0))] }⟩

/-- The graph holding `C10edge`. -/
def C10graph : SkeletalGraph :=
  { nextVertexId := 2, nextEdgeId := 1,
    vertices := [(0, { radius := 3 }), (1, { radius := 5 })],
    edges := [C10edge], edge_spline_count := 3 }

/-- Witness for C10 at a concrete graph and the out-of-range index 99. -/
theorem claim_C10_witness :
    C10graph.findE 0 = some C10edge ∧ 2 ≤ C10edge.prop.curve.length ∧
    C10graph.get_edge_radius 0 99 = (C10graph.getV 1).radius :=
  ⟨rfl, by decide,
   (claim_C10_get_edge_radius_clamps C10graph 0 C10edge rfl (by decide)).2 99 (by decide)⟩

/-! ### Claim C7 -/

/-- Claim C7 (confirmed): for a live edge, `remove_edge` returns exactly
the endpoints it auto-removed: the source is removed iff its total
degree before the removal was 1 (it would become isolated) and the graph
does not hold exactly one vertex; the target likewise, with the vertex
count re-checked after a possible source removal.  The returned
descriptors are exactly the vertices missing from the resulting state,
and the resulting state never has an empty vertex table. -/
theorem claim_C7_remove_edge_auto_removal (g : SkeletalGraph) (ed : EdgeEntry)
    (hWF : WF g) (hmem : ed ∈ g.edges) :
    (g.remove_edge (some ed.id)).1
      = ((if g.degree ed.src = 1 ∧ g.vertex_count ≠ 1 then some ed.src else none),
         (if g.degree ed.tgt = 1 ∧
             (g.vertex_count - (if g.degree ed.src = 1 ∧ g.vertex_count ≠ 1 then 1 else 0)) ≠ 1
           then some ed.tgt else none)) ∧
    (∀ v, v ∈ (g.remove_edge (some ed.id)).2.ids ↔
        (v ∈ g.ids ∧ (g.remove_edge (some ed.id)).1.1 ≠ some v
          ∧ (g.remove_edge (some ed.id)).1.2 ≠ some v)) ∧
    1 ≤ (g.remove_edge (some ed.id)).2.vertex_count := by
  obtain ⟨hvnd, hend, _hbv, _hbe, hcl⟩ := hWF
  have hfind : g.findE ed.id = some ed := findE_of_mem g ed hmem hend
  have hfeb : (g.first_edge_between ed.src ed.tgt).isSome = true := by
    unfold SkeletalGraph.first_edge_between
    rw [List.find?_isSome]
    exact ⟨ed, hmem, by simp⟩
  have hsrc : ed.src ∈ g.ids := (hcl ed hmem).1
  have htgt : ed.tgt ∈ g.ids := (hcl ed hmem).2
  have hpos : 1 ≤ g.vertex_count := by
    rcases List.mem_map.mp hsrc with ⟨pr, hpr, _⟩
    exact List.length_pos_of_mem hpr
  -- if both endpoints have degree 1, the edge is not a self-loop
  have hne_of_deg : g.degree ed.src = 1 → g.degree ed.tgt = 1 → ed.src ≠ ed.tgt := by
    intro h1 _h2 hcon
    have hin : ed ∈ g.in_edges ed.src := by
      unfold SkeletalGraph.in_edges
      rw [List.mem_filter]
      exact ⟨hmem, by simp [hcon]⟩
    have hout : ed ∈ g.out_edges ed.src := by
      unfold SkeletalGraph.out_edges
      rw [List.mem_filter]
      exact ⟨hmem, by simp⟩
    have l1 := List.length_pos_of_mem hin
    have l2 := List.length_pos_of_mem hout
    unfold SkeletalGraph.degree at h1
    omega
  unfold SkeletalGraph.remove_edge
  dsimp only
  rw [hfind]
  dsimp only
  rw [hfeb]
  simp only [if_true]
  simp only [SkeletalGraph.vertex_count, SkeletalGraph.ids] at *
  by_cases hS : g.degree ed.src = 1 ∧ ¬g.vertices.length = 1
  · simp only [if_pos hS]
    have hlen2 : (g.vertices.filter (fun pr => !(pr.1 == ed.src))).length + 1
        = g.vertices.length :=
      filterV_length g.vertices ed.src hvnd hsrc
    by_cases hT : g.degree ed.tgt = 1
        ∧ ¬(g.vertices.filter (fun pr => !(pr.1 == ed.src))).length = 1
    · have hst : ed.src ≠ ed.tgt := hne_of_deg hS.1 hT.1
      simp only [if_pos hT, if_pos (show g.degree ed.tgt = 1 ∧ ¬g.vertices.length - 1 = 1 by
        exact ⟨hT.1, by omega⟩)]
      refine ⟨trivial, ?_, ?_⟩
      · intro v
        rw [mem_ids_filterV, mem_ids_filterV]
        constructor
        · rintro ⟨⟨hm, hv1⟩, hv2⟩
          exact ⟨hm, by simpa using (Ne.symm hv1), by simpa using (Ne.symm hv2)⟩
        · rintro ⟨hm, hv1, hv2⟩
          refine ⟨⟨hm, ?_⟩, ?_⟩
          · intro hc; exact hv1 (by rw [hc])
          · intro hc; exact hv2 (by rw [hc])
      · have htgt2 : ed.tgt ∈ (g.vertices.filter (fun pr => !(pr.1 == ed.src))).map (·.1) := by
          rw [mem_ids_filterV]
          exact ⟨htgt, Ne.symm hst⟩
        have hnd2 : ((g.vertices.filter (fun pr => !(pr.1 == ed.src))).map (·.1)).Nodup :=
          List.Nodup.sublist (List.Sublist.map _ (List.filter_sublist _)) hvnd
        have hlen3 := filterV_length (g.vertices.filter (fun pr => !(pr.1 == ed.src)))
          ed.tgt hnd2 htgt2
        omega
    · simp only [if_neg hT, if_neg (show ¬(g.degree ed.tgt = 1 ∧ ¬g.vertices.length - 1 = 1) by
        intro hc
        exact hT ⟨hc.1, by omega⟩)]
      refine ⟨trivial, ?_, ?_⟩
      · intro v
        rw [mem_ids_filterV]
        constructor
        · rintro ⟨hm, hv1⟩
          exact ⟨hm, by simpa using (Ne.symm hv1), by simp⟩
        · rintro ⟨hm, hv1, _⟩
          refine ⟨hm, ?_⟩
          intro hc; exact hv1 (by rw [hc])
      · omega
  · simp only [if_neg hS]
    by_cases hT : g.degree ed.tgt = 1 ∧ ¬g.vertices.length = 1
    · simp only [if_pos hT, if_pos (show g.degree ed.tgt = 1 ∧ ¬g.vertices.length - 0 = 1 by
        exact ⟨hT.1, by omega⟩)]
      have hlen2 : (g.vertices.filter (fun pr => !(pr.1 == ed.tgt))).length + 1
          = g.vertices.length :=
        filterV_length g.vertices ed.tgt hvnd htgt
      refine ⟨trivial, ?_, ?_⟩
      · intro v
        rw [mem_ids_filterV]
        constructor
        · rintro ⟨hm, hv1⟩
          exact ⟨hm, by simp, by simpa using (Ne.symm hv1)⟩
        · rintro ⟨hm, _, hv2⟩
          refine ⟨hm, ?_⟩
          intro hc; exact hv2 (by rw [hc])
      · omega
    · simp only [if_neg hT, if_neg (show ¬(g.degree ed.tgt = 1 ∧ ¬g.vertices.length - 0 = 1) by
        intro hc
        exact hT ⟨hc.1, by omega⟩)]
      refine ⟨trivial, ?_, ?_⟩
      · intro v
        simp
      · exact hpos

/-- A two-vertex, one-edge graph for the C7 witness. -/
def C7edge : EdgeEntry := ⟨0, 0, 1, {}⟩

/-- The graph holding `C7edge`. -/
def C7graph : SkeletalGraph :=
  { nextVertexId := 2, nextEdgeId := 1,
    vertices := [(0, {}), (1, {})], edges := [C7edge], edge_spline_count := 2 }

/-- Witness for C7: removing the only edge of a two-vertex graph
auto-removes the source (degree 1, two vertices), suppresses the target
removal (one vertex would remain), and leaves a non-empty graph. -/
theorem claim_C7_witness :
    WF C7graph ∧ C7edge ∈ C7graph.edges ∧
    (C7graph.remove_edge (some C7edge.id)).1 = (some 0, none) ∧
    1 ≤ (C7graph.remove_edge (some C7edge.id)).2.vertex_count := by
  refine ⟨by decide, by decide, ?_,
    (claim_C7_remove_edge_auto_removal C7graph C7edge (by decide) (by decide)).2.2⟩
  rw [(claim_C7_remove_edge_auto_removal C7graph C7edge (by decide) (by decide)).1]
  decide

/-! ### Claim C8 -/

theorem updE_edges (g : SkeletalGraph) (e : ℕ) (f : EdgeProperties → EdgeProperties) :
    (g.updE e f).edges
      = g.edges.map (fun ed => if ed.id = e then { ed with prop := f ed.prop } else ed) := rfl

theorem mem_updE_of_ne (g : SkeletalGraph) (e : ℕ) (f : EdgeProperties → EdgeProperties)
    {x : EdgeEntry} (hx : x ∈ g.edges) (hne : x.id ≠ e) : x ∈ (g.updE e f).edges := by
  rw [updE_edges]
  exact List.mem_map.mpr ⟨x, hx, by simp [hne]⟩

theorem mem_updE_entry (g : SkeletalGraph) (e : ℕ) (f : EdgeProperties → EdgeProperties)
    {x : EdgeEntry} (hx : x ∈ g.edges) (hx2 : x.id = e) :
    ({ x with prop := f x.prop } : EdgeEntry) ∈ (g.updE e f).edges :=
  List.mem_map.mpr ⟨x, hx, by simp [hx2]⟩

theorem updE_edge_ids (g : SkeletalGraph) (e : ℕ) (f : EdgeProperties → EdgeProperties) :
    ((g.updE e f).edges.map (·.id)) = g.edges.map (·.id) := by
  rw [updE_edges, List.map_map]
  apply List.map_congr_left
  intro x _
  by_cases h : x.id = e <;> simp [h]

/-- Helper: `remove_edge` on a live edge with both endpoint degrees
different from 1 removes just the edge (no auto-removal). -/
theorem remove_edge_no_auto (g : SkeletalGraph) (ed : EdgeEntry)
    (hfind : g.findE ed.id = some ed)
    (hfeb : (g.first_edge_between ed.src ed.tgt).isSome = true)
    (hs : g.degree ed.src ≠ 1) (ht : g.degree ed.tgt ≠ 1) :
    g.remove_edge (some ed.id)
      = ((none, none),
         { g with edge_spline_count := g.edge_spline_count - ed.prop.curve.length,
                  edges := g.edges.filter (fun x => !(x.id == ed.id)) }) := by
  unfold SkeletalGraph.remove_edge
  dsimp only
  rw [hfind]
  dsimp only
  rw [hfeb]
  simp only [if_true]
  rw [if_neg (by intro hc; exact hs hc.1)]
  rw [if_neg (by intro hc; exact ht hc.1)]

/-- Helper for C8: after inserting the left and right half edges, fixing
their cycle flags and removing the split edge, the vertex table is
untouched and both new edges survive with their endpoints. -/
theorem split_tail (g1 : SkeletalGraph) (ed : EdgeEntry) (nV : ℕ)
    (pr1 pr2 : EdgeProperties) (f1 f2 : EdgeProperties → EdgeProperties)
    (hmem : ed ∈ g1.edges) (hnd : (g1.edges.map (·.id)).Nodup)
    (hlt : ed.id < g1.nextEdgeId)
    (hbound : ∀ x ∈ g1.edges, x.id < g1.nextEdgeId)
    (hnV : nV ∈ g1.ids) :
    let g2 := (g1.add_edge (some ed.src) (some nV) pr1).2
    let g3 := (g2.add_edge (some nV) (some ed.tgt) pr2).2
    let g5 := (g3.updE g1.nextEdgeId f1).updE g2.nextEdgeId f2
    let g6 := (g5.remove_edge (some ed.id)).2
    nV ∈ g6.ids ∧
    (∃ pr, (⟨g1.nextEdgeId, ed.src, nV, pr⟩ : EdgeEntry) ∈ g6.edges) ∧
    (∃ pr, (⟨g2.nextEdgeId, nV, ed.tgt, pr⟩ : EdgeEntry) ∈ g6.edges) := by
  intro g2 g3 g5 g6
  obtain ⟨q1, hq1⟩ : ∃ q, g2.edges = g1.edges ++ [⟨g1.nextEdgeId, ed.src, nV, q⟩] := ⟨_, rfl⟩
  obtain ⟨q2, hq2⟩ : ∃ q, g3.edges = g2.edges ++ [⟨g2.nextEdgeId, nV, ed.tgt, q⟩] := ⟨_, rfl⟩
  have hR : g2.nextEdgeId = g1.nextEdgeId + 1 := rfl
  have hg5ids : g5.edges.map (·.id) = g3.edges.map (·.id) := by
    show (((g3.updE g1.nextEdgeId f1).updE g2.nextEdgeId f2).edges.map (·.id)) = _
    rw [updE_edge_ids, updE_edge_ids]
  have hg3ids : g3.edges.map (·.id)
      = g1.edges.map (·.id) ++ [g1.nextEdgeId, g1.nextEdgeId + 1] := by
    rw [hq2, hq1]
    simp [hR]
  have hnd5 : (g5.edges.map (·.id)).Nodup := by
    rw [hg5ids, hg3ids]
    rw [List.nodup_append]
    refine ⟨hnd, by simp, ?_⟩
    intro a ha
    rcases List.mem_map.mp ha with ⟨x, hx1, hx2⟩
    have := hbound x hx1
    have hxa : x.id = a := hx2
    intro hcon
    rcases List.mem_cons.mp hcon with h | hcon2
    · omega
    rcases List.mem_cons.mp hcon2 with h | hcon3
    · omega
    · exact absurd hcon3 (List.not_mem_nil a)
  have hne1 : ed.id ≠ g1.nextEdgeId := by omega
  have hne2 : ed.id ≠ g2.nextEdgeId := by rw [hR]; omega
  have hmem3 : ed ∈ g3.edges := by
    rw [hq2, hq1]
    exact List.mem_append_left _ (List.mem_append_left _ hmem)
  have hmem5 : ed ∈ g5.edges :=
    mem_updE_of_ne _ _ _ (mem_updE_of_ne _ _ _ hmem3 hne1) hne2
  have hfind5 : g5.findE ed.id = some ed := findE_of_mem _ ed hmem5 hnd5
  have hfeb5 : (g5.first_edge_between ed.src ed.tgt).isSome = true := by
    unfold SkeletalGraph.first_edge_between
    rw [List.find?_isSome]
    exact ⟨ed, hmem5, by simp⟩
  -- the two inserted entries, carried through the two flag updates
  have hL3 : (⟨g1.nextEdgeId, ed.src, nV, q1⟩ : EdgeEntry) ∈ g3.edges := by
    rw [hq2]
    exact List.mem_append_left _ (by rw [hq1]; exact List.mem_append_right _ (by simp))
  have hL4 : (⟨g1.nextEdgeId, ed.src, nV, f1 q1⟩ : EdgeEntry)
      ∈ (g3.updE g1.nextEdgeId f1).edges :=
    mem_updE_entry _ _ _ hL3 rfl
  have hL5 : (⟨g1.nextEdgeId, ed.src, nV, f1 q1⟩ : EdgeEntry) ∈ g5.edges :=
    mem_updE_of_ne _ _ _ hL4 (by show g1.nextEdgeId ≠ g2.nextEdgeId; rw [hR]; omega)
  have hR3 : (⟨g2.nextEdgeId, nV, ed.tgt, q2⟩ : EdgeEntry) ∈ g3.edges := by
    rw [hq2]
    exact List.mem_append_right _ (by simp)
  have hR4 : (⟨g2.nextEdgeId, nV, ed.tgt, q2⟩ : EdgeEntry)
      ∈ (g3.updE g1.nextEdgeId f1).edges :=
    mem_updE_of_ne _ _ _ hR3 (by show g2.nextEdgeId ≠ g1.nextEdgeId; rw [hR]; omega)
  have hR5 : (⟨g2.nextEdgeId, nV, ed.tgt, f2 q2⟩ : EdgeEntry) ∈ g5.edges :=
    mem_updE_entry _ _ _ hR4 rfl
  -- neither endpoint of the split edge has degree 1 in g5
  have hsdeg : g5.degree ed.src ≠ 1 := by
    have h1 : ed ∈ g5.out_edges ed.src :=
      List.mem_filter.mpr ⟨hmem5, by simp⟩
    have h2 : (⟨g1.nextEdgeId, ed.src, nV, f1 q1⟩ : EdgeEntry) ∈ g5.out_edges ed.src :=
      List.mem_filter.mpr ⟨hL5, by simp⟩
    have hne : ed ≠ (⟨g1.nextEdgeId, ed.src, nV, f1 q1⟩ : EdgeEntry) := by
      intro hcon
      exact hne1 (congrArg EdgeEntry.id hcon)
    have := two_le_length_of_mem_of_mem_of_ne h1 h2 hne
    unfold SkeletalGraph.degree
    omega
  have htdeg : g5.degree ed.tgt ≠ 1 := by
    have h1 : ed ∈ g5.in_edges ed.tgt :=
      List.mem_filter.mpr ⟨hmem5, by simp⟩
    have h2 : (⟨g2.nextEdgeId, nV, ed.tgt, f2 q2⟩ : EdgeEntry) ∈ g5.in_edges ed.tgt :=
      List.mem_filter.mpr ⟨hR5, by simp⟩
    have hne : ed ≠ (⟨g2.nextEdgeId, nV, ed.tgt, f2 q2⟩ : EdgeEntry) := by
      intro hcon
      exact hne2 (congrArg EdgeEntry.id hcon)
    have := two_le_length_of_mem_of_mem_of_ne h1 h2 hne
    unfold SkeletalGraph.degree
    omega
  have hg6 : g6 = { g5 with
      edge_spline_count := g5.edge_spline_count - ed.prop.curve.length,
      edges := g5.edges.filter (fun x => !(x.id == ed.id)) } := by
    show (g5.remove_edge (some ed.id)).2 = _
    rw [remove_edge_no_auto g5 ed hfind5 hfeb5 hsdeg htdeg]
  refine ⟨?_, ⟨f1 q1, ?_⟩, ⟨f2 q2, ?_⟩⟩
  · rw [hg6]
    exact hnV
  · rw [hg6]
    exact List.mem_filter.mpr ⟨hL5, by simp [Ne.symm hne1]⟩
  · rw [hg6]
    exact List.mem_filter.mpr ⟨hR5, by simp [Ne.symm hne2]⟩

/-- Claim C8 (confirmed): `split_edge_at(e, i, p)` throws
`InvalidArgument` exactly when `i` is outside `0 ≤ i < curve.size()-1`;
inside the range it returns normally, handing back the freshly inserted
middle vertex together with the left edge (source → middle) and right
edge (middle → target), all present in the resulting graph. -/
theorem claim_C8_split_edge_at_range (g : SkeletalGraph) (ed : EdgeEntry)
    (hWF : WF g) (hmem : ed ∈ g.edges) (_hcurve : 2 ≤ ed.prop.curve.length) :
    (∀ i p, g.split_edge_at ed.id i p = .error () ↔ ¬(i < ed.prop.curve.length - 1)) ∧
    (∀ i p, i < ed.prop.curve.length - 1 →
      ∃ g', (g.split_edge_at ed.id i p
              = .ok ((g.nextVertexId, (g.nextEdgeId, g.nextEdgeId + 1)), g')) ∧
        g.nextVertexId ∈ g'.ids ∧
        (∃ pr, (⟨g.nextEdgeId, ed.src, g.nextVertexId, pr⟩ : EdgeEntry) ∈ g'.edges) ∧
        (∃ pr, (⟨g.nextEdgeId + 1, g.nextVertexId, ed.tgt, pr⟩ : EdgeEntry) ∈ g'.edges)) := by
  obtain ⟨hvnd, hend, hbv, hbe, hcl⟩ := hWF
  have hfind : g.findE ed.id = some ed := findE_of_mem g ed hmem hend
  have hidlt : ed.id < g.nextEdgeId := hbe ed hmem
  constructor
  · intro i p
    unfold SkeletalGraph.split_edge_at
    rw [hfind]
    dsimp only
    by_cases hc : ed.prop.curve.length - 1 ≤ i
    · rw [if_pos hc]
      constructor
      · intro _; omega
      · intro _; rfl
    · rw [if_neg hc]
      constructor
      · intro hcon; cases hcon
      · intro hcon; omega
  · intro i p hlt
    unfold SkeletalGraph.split_edge_at
    rw [hfind]
    dsimp only
    rw [if_neg (by omega : ¬(ed.prop.curve.length - 1 ≤ i))]
    refine ⟨_, rfl, ?_⟩
    have hnV : g.nextVertexId
        ∈ (g.add_vertex { position := p, radius := g.get_edge_radius ed.id i }).2.ids := by
      simp [SkeletalGraph.ids, SkeletalGraph.add_vertex]
    exact split_tail _ ed _ _ _ _ _ hmem hend hidlt hbe hnV

/-- A two-vertex, one-edge graph with a 3-sample curve for the C8
witness. -/
def C8edge : EdgeEntry :=
  ⟨0, 0, 1, { curve := [((0,0,0),(1,0,0)), ((1,0,0),(1,0,0)), ((2,0,0),(1,0,0))] }⟩

/-- The graph holding `C8edge`. -/
def C8graph : SkeletalGraph :=
  { nextVertexId := 2, nextEdgeId := 1,
    vertices := [(0, {}), (1, {})], edges := [C8edge], edge_spline_count := 3 }

/-- Witness for C8: at segment index 5 (out of range for a 3-sample
curve) the split throws; at index 1 it returns the new middle vertex and
edges. -/
theorem claim_C8_witness :
    WF C8graph ∧ C8edge ∈ C8graph.edges ∧ 2 ≤ C8edge.prop.curve.length ∧
    C8graph.split_edge_at C8edge.id 5 (0,0,0) = .error () ∧
    (∃ g', (C8graph.split_edge_at C8edge.id 1 (5,0,0)
            = .ok ((C8graph.nextVertexId, (C8graph.nextEdgeId, C8graph.nextEdgeId + 1)), g')) ∧
      C8graph.nextVertexId ∈ g'.ids ∧
      (∃ pr, (⟨C8graph.nextEdgeId, C8edge.src, C8graph.nextVertexId, pr⟩ : EdgeEntry) ∈ g'.edges) ∧
      (∃ pr, (⟨C8graph.nextEdgeId + 1, C8graph.nextVertexId, C8edge.tgt, pr⟩ : EdgeEntry) ∈ g'.edges)) := by
  have H := claim_C8_split_edge_at_range C8graph C8edge (by decide) (by decide) (by decide)
  exact ⟨by decide, by decide, by decide,
         (H.1 5 (0,0,0)).mpr (by decide), H.2 1 (5,0,0) (by decide)⟩

/-! ### Claim C3 -/

theorem filter_key_length {α : Type} (key : α → ℕ) (l : List α) (x : ℕ)
    (hnd : (l.map key).Nodup) (hx : x ∈ l.map key) :
    (l.filter (fun a => !(key a == x))).length + 1 = l.length := by
  induction l with
  | nil => cases hx
  | cons a t ih =>
    have hnd' : key a ∉ t.map key ∧ (t.map key).Nodup := by
      rw [List.map_cons] at hnd; exact List.nodup_cons.mp hnd
    by_cases hax : key a = x
    · have hall : t.filter (fun b => !(key b == x)) = t := by
        apply List.filter_eq_self.mpr
        intro b hb
        have : key b ≠ x := by
          intro hcon
          have hmm : key b ∈ t.map key := List.mem_map_of_mem key hb
          rw [hcon, ← hax] at hmm
          exact hnd'.1 hmm
        simpa using this
      simp [List.filter_cons, hax, hall]
    · have hxt : x ∈ t.map key := by
        rcases List.mem_map.mp hx with ⟨b, hb, he⟩
        rcases List.mem_cons.mp hb with rfl | hmt
        · exact absurd he hax
        · exact he ▸ List.mem_map_of_mem key hmt
      have := ih hnd'.2 hxt
      simp only [List.filter_cons]
      have hcond : (!(key a == x)) = true := by simpa using hax
      simp only [hcond, if_true, List.length_cons]
      omega

theorem filter_length_partition {α : Type} (l : List α) (p : α → Bool) :
    (l.filter p).length + (l.filter (fun x => !(p x))).length = l.length := by
  induction l with
  | nil => rfl
  | cons a t ih =>
    by_cases h : p a = true
    · rw [List.filter_cons_of_pos h, List.filter_cons_of_neg (by simp [h])]
      simp only [List.length_cons]
      omega
    · have hf : p a = false := by simpa using h
      rw [List.filter_cons_of_neg h, List.filter_cons_of_pos (by simp [hf])]
      simp only [List.length_cons]
      omega

theorem length_filter_and_le {α : Type} (l : List α) (p q : α → Bool) :
    (l.filter (fun a => p a && q a)).length ≤ (l.filter p).length := by
  induction l with
  | nil => exact Nat.le_refl _
  | cons a t ih =>
    by_cases hp : p a = true
    · by_cases hq : q a = true
      · rw [List.filter_cons_of_pos (by simp [hp, hq]), List.filter_cons_of_pos hp]
        simp only [List.length_cons]
        omega
      · have hq' : q a = false := by simpa using hq
        rw [List.filter_cons_of_neg (by simp [hq']), List.filter_cons_of_pos hp]
        simp only [List.length_cons]
        omega
    · have hp' : p a = false := by simpa using hp
      rw [List.filter_cons_of_neg (by simp [hp']), List.filter_cons_of_neg hp]
      exact ih

/-- Splitting the incident edges of `v` into in-edges and out-edges is
exact when no self-loop sits at `v`. -/
theorem incident_split (l : List EdgeEntry) (v : ℕ)
    (h : ∀ x ∈ l, ¬(x.src = v ∧ x.tgt = v)) :
    (l.filter (fun x => !(x.tgt == v || x.src == v))).length
      + ((l.filter (fun x => x.tgt == v)).length
         + (l.filter (fun x => x.src == v)).length)
      = l.length := by
  induction l with
  | nil => rfl
  | cons a t ih =>
    have ht := ih (fun x hx => h x (List.mem_cons_of_mem a hx))
    have ha := h a (List.mem_cons_self a t)
    by_cases h1 : a.tgt = v
    · by_cases h2 : a.src = v
      · exact absurd ⟨h2, h1⟩ ha
      · have e1 : (a.tgt == v) = true := by simpa using h1
        have e2 : (a.src == v) = false := by simpa using h2
        rw [List.filter_cons_of_neg (p := fun x : EdgeEntry => !(x.tgt == v || x.src == v)) (by simp [e1]),
            List.filter_cons_of_pos (p := fun x : EdgeEntry => x.tgt == v) e1,
            List.filter_cons_of_neg (p := fun x : EdgeEntry => x.src == v) (by simp [e2])]
        simp only [List.length_cons]
        omega
    · by_cases h2 : a.src = v
      · have e1 : (a.tgt == v) = false := by simpa using h1
        have e2 : (a.src == v) = true := by simpa using h2
        rw [List.filter_cons_of_neg (p := fun x : EdgeEntry => !(x.tgt == v || x.src == v))
              (by simp [e1, e2]),
            List.filter_cons_of_neg (p := fun x : EdgeEntry => x.tgt == v) (by simp [e1]),
            List.filter_cons_of_pos (p := fun x : EdgeEntry => x.src == v) e2]
        simp only [List.length_cons]
        omega
      · have e1 : (a.tgt == v) = false := by simpa using h1
        have e2 : (a.src == v) = false := by simpa using h2
        rw [List.filter_cons_of_pos (p := fun x : EdgeEntry => !(x.tgt == v || x.src == v))
              (by simp [e1, e2]),
            List.filter_cons_of_neg (p := fun x : EdgeEntry => x.tgt == v) (by simp [e1]),
            List.filter_cons_of_neg (p := fun x : EdgeEntry => x.src == v) (by simp [e2])]
        simp only [List.length_cons]
        omega

theorem updV_ids (g : SkeletalGraph) (v : ℕ) (f : VertexProperties → VertexProperties) :
    (g.updV v f).ids = g.ids := by
  unfold SkeletalGraph.updV SkeletalGraph.ids
  rw [List.map_map]
  apply List.map_congr_left
  intro x _
  by_cases h : x.1 = v <;> simp [h]

theorem updV_edges (g : SkeletalGraph) (v : ℕ) (f : VertexProperties → VertexProperties) :
    (g.updV v f).edges = g.edges := rfl

theorem find_updV (l : List (ℕ × VertexProperties)) (v : ℕ)
    (f : VertexProperties → VertexProperties) :
    (l.map (fun pr => if pr.1 = v then (pr.1, f pr.2) else pr)).find? (fun pr => pr.1 == v)
      = (l.find? (fun pr => pr.1 == v)).map (fun pr => (pr.1, f pr.2)) := by
  induction l with
  | nil => rfl
  | cons a t ih =>
    by_cases h : a.1 = v
    · have hb : (a.1 == v) = true := by simpa using h
      rw [List.map_cons, if_pos h,
          List.find?_cons_of_pos (p := fun pr : ℕ × VertexProperties => pr.1 == v) _
            (by simpa using h),
          List.find?_cons_of_pos (p := fun pr : ℕ × VertexProperties => pr.1 == v) _ hb]
      rfl
    · have hb : ¬((a.1 == v) = true) := by simpa using h
      rw [List.map_cons, if_neg h,
          List.find?_cons_of_neg (p := fun pr : ℕ × VertexProperties => pr.1 == v) _ hb,
          List.find?_cons_of_neg (p := fun pr : ℕ × VertexProperties => pr.1 == v) _ hb]
      exact ih

theorem getV_updV_self (g : SkeletalGraph) (v : ℕ) (f : VertexProperties → VertexProperties)
    (hv : v ∈ g.ids) : (g.updV v f).getV v = f (g.getV v) := by
  unfold SkeletalGraph.updV SkeletalGraph.getV
  dsimp only
  rw [find_updV]
  rcases List.mem_map.mp hv with ⟨pr, hpr, hprv⟩
  obtain ⟨x, hx⟩ : ∃ x, g.vertices.find? (fun pr => pr.1 == v) = some x := by
    rw [← Option.isSome_iff_exists, List.find?_isSome]
    exact ⟨pr, hpr, by simpa using hprv⟩
  rw [hx]
  rfl

/-- One generic step-preservation lemma for the edge-adding folds of
`collapse_edge`. -/
theorem foldl_add_preserve {α : Type}
    (step : (List ℕ × SkeletalGraph) → α → (List ℕ × SkeletalGraph))
    (hv : ∀ acc a, (step acc a).2.vertices = acc.2.vertices)
    (hl : ∀ acc a, (step acc a).2.edges.length = acc.2.edges.length + 1) :
    ∀ (Q : List α) (acc : List ℕ × SkeletalGraph),
      (Q.foldl step acc).2.vertices = acc.2.vertices ∧
      (Q.foldl step acc).2.edges.length = acc.2.edges.length + Q.length := by
  intro Q
  induction Q with
  | nil => intro acc; exact ⟨rfl, rfl⟩
  | cons a t ih =>
    intro acc
    have h1 := ih (step acc a)
    refine ⟨?_, ?_⟩
    · rw [List.foldl_cons, h1.1, hv]
    · rw [List.foldl_cons, h1.2, hl]
      simp only [List.length_cons]
      omega

theorem collapse_add_in_vertices (k : ℕ) (acc : List ℕ × SkeletalGraph)
    (sp : ℕ × EdgeProperties) :
    (SkeletalGraph.collapse_add_in k acc sp).2.vertices = acc.2.vertices := rfl

theorem collapse_add_in_len (k : ℕ) (acc : List ℕ × SkeletalGraph)
    (sp : ℕ × EdgeProperties) :
    (SkeletalGraph.collapse_add_in k acc sp).2.edges.length = acc.2.edges.length + 1 := by
  unfold SkeletalGraph.collapse_add_in SkeletalGraph.add_edge
  simp

theorem collapse_add_out_vertices (k : ℕ) (acc : List ℕ × SkeletalGraph)
    (tp : ℕ × EdgeProperties) :
    (SkeletalGraph.collapse_add_out k acc tp).2.vertices = acc.2.vertices := rfl

theorem collapse_add_out_len (k : ℕ) (acc : List ℕ × SkeletalGraph)
    (tp : ℕ × EdgeProperties) :
    (SkeletalGraph.collapse_add_out k acc tp).2.edges.length = acc.2.edges.length + 1 := by
  unfold SkeletalGraph.collapse_add_out SkeletalGraph.add_edge
  simp

/-- Claim C3 (corrected): `collapse_edge(e, MIDPOINT)` for a live
non-self-loop edge whose dropped endpoint carries no self-loop returns
normally with the target as the dropped vertex, leaves the vertex table
unchanged (the dropped vertex is cleared, NOT removed, so the vertex
count does not decrease), removes at least one edge net, and repositions
the kept source vertex to the midpoint of the two endpoint positions. -/
theorem claim_C3_collapse_edge_midpoint (g : SkeletalGraph) (ed : EdgeEntry)
    (hWF : WF g) (hmem : ed ∈ g.edges) (hne : ed.src ≠ ed.tgt)
    (hnoself : ∀ x ∈ g.edges, ¬(x.src = ed.tgt ∧ x.tgt = ed.tgt)) :
    ∃ cleared added g',
      g.collapse_edge ed.id .MIDPOINT = .ok ((ed.tgt, cleared), (added, g')) ∧
      g'.ids = g.ids ∧
      g'.edge_count + 1 ≤ g.edge_count ∧
      (g'.getV ed.src).position
        = vscale (vadd (g.getV ed.src).position (g.getV ed.tgt).position) (1/2) := by
  obtain ⟨hvnd, hend, hbv, hbe, hcl⟩ := hWF
  have hfind : g.findE ed.id = some ed := findE_of_mem g ed hmem hend
  have hfeb : (g.first_edge_between ed.src ed.tgt).isSome = true := by
    unfold SkeletalGraph.first_edge_between
    rw [List.find?_isSome]
    exact ⟨ed, hmem, by simp⟩
  have hsrc : ed.src ∈ g.ids := (hcl ed hmem).1
  unfold SkeletalGraph.collapse_edge
  rw [hfind]
  dsimp only
  rw [hfeb]
  simp only [if_true]
  have hkeep : (if (SkeletalGraph.COLLAPSE_OPTION.MIDPOINT = SkeletalGraph.COLLAPSE_OPTION.TARGET)
      then ed.tgt else ed.src) = ed.src := rfl
  have hrem : (if (SkeletalGraph.COLLAPSE_OPTION.MIDPOINT = SkeletalGraph.COLLAPSE_OPTION.TARGET)
      then ed.src else ed.tgt) = ed.tgt := rfl
  simp only [hkeep, hrem,
    if_pos (rfl : SkeletalGraph.COLLAPSE_OPTION.MIDPOINT = SkeletalGraph.COLLAPSE_OPTION.MIDPOINT)]
  refine ⟨_, _, _, rfl, ?_, ?_, ?_⟩
  · -- vertex table unchanged
    rw [updV_ids]
    unfold SkeletalGraph.ids
    rw [(foldl_add_preserve _ (collapse_add_out_vertices ed.src)
          (collapse_add_out_len ed.src) _ _).1,
        (foldl_add_preserve _ (collapse_add_in_vertices ed.src)
          (collapse_add_in_len ed.src) _ _).1]
    rfl
  · -- at least one edge disappears net
    have hndin : ((g.in_edges ed.tgt).map (fun x => x.id)).Nodup :=
      List.Nodup.sublist (List.Sublist.map _ (List.filter_sublist _)) hend
    have hmemin : ed.id ∈ (g.in_edges ed.tgt).map (fun x => x.id) := by
      have hin : ed ∈ g.in_edges ed.tgt := by
        unfold SkeletalGraph.in_edges
        exact List.mem_filter.mpr ⟨hmem, by simp⟩
      exact List.mem_map_of_mem (fun x => x.id) hin
    have hlen2 :
        (((g.in_edges ed.tgt).filter
            (fun x => !(x.id == ed.id))).length + 1 = (g.in_edges ed.tgt).length) :=
      filter_key_length (fun x => x.id) (g.in_edges ed.tgt) ed.id hndin hmemin
    have hout_all : ((g.out_edges ed.tgt).filter (fun x => !(x.id == ed.id)))
        = g.out_edges ed.tgt := by
      apply List.filter_eq_self.mpr
      intro x hx
      have hxe : x ∈ g.edges := (List.mem_filter.mp hx).1
      have hxs : x.src = ed.tgt := by
        have := (List.mem_filter.mp hx).2
        simpa using this
      have : x.id ≠ ed.id := by
        intro hcon
        have hxeq : x = ed :=
          List.inj_on_of_nodup_map hend hxe hmem hcon
        rw [hxeq] at hxs
        exact hne hxs
      simpa using this
    have hQin : (((g.in_edges ed.tgt).filter
          (fun x => !(x.id == ed.id) && !(x.src == ed.src))).length)
        ≤ ((g.in_edges ed.tgt).filter (fun x => !(x.id == ed.id))).length :=
      length_filter_and_le _ _ _
    have hQout : (((g.out_edges ed.tgt).filter
          (fun x => !(x.id == ed.id) && !(x.tgt == ed.src))).length)
        ≤ ((g.out_edges ed.tgt).filter (fun x => !(x.id == ed.id))).length :=
      length_filter_and_le _ _ _
    have hsplit := incident_split g.edges ed.tgt hnoself
    unfold SkeletalGraph.edge_count
    rw [updV_edges]
    rw [(foldl_add_preserve _ (collapse_add_out_vertices ed.src)
          (collapse_add_out_len ed.src) _ _).2,
        (foldl_add_preserve _ (collapse_add_in_vertices ed.src)
          (collapse_add_in_len ed.src) _ _).2]
    simp only [List.length_map]
    unfold SkeletalGraph.clear_vertex
    dsimp only
    unfold SkeletalGraph.in_edges SkeletalGraph.out_edges at *
    rw [hout_all] at hQout
    omega
  · -- the kept vertex sits at the midpoint
    rw [getV_updV_self]
    unfold SkeletalGraph.ids
    rw [(foldl_add_preserve _ (collapse_add_out_vertices ed.src)
          (collapse_add_out_len ed.src) _ _).1,
        (foldl_add_preserve _ (collapse_add_in_vertices ed.src)
          (collapse_add_in_len ed.src) _ _).1]
    exact hsrc

/-- A two-vertex, one-edge graph for the C3 counterexample and witness. -/
def C3edge : EdgeEntry := ⟨0, 0, 1, { curve := [((0,0,0),(1,0,0)), ((2,0,0),(1,0,0))] }⟩

/-- The graph holding `C3edge`. -/
def C3graph : SkeletalGraph :=
  { nextVertexId := 2, nextEdgeId := 1,
    vertices := [(0, { position := (0,0,0) }), (1, { position := (2,0,0) })],
    edges := [C3edge], edge_spline_count := 2 }

/-- Counterexample to claim C3 as stated: on a two-vertex graph (so the
claimed vertex-count==1 suppression does not apply) collapsing the only
edge at the midpoint leaves the vertex count at 2 — the dropped vertex
is cleared but stays in the vertex table — contradicting the claimed
reduction of the vertex count by 1. -/
theorem claim_C3_counterexample :
    C3graph.vertex_count = 2 ∧
    ∃ cleared added g',
      C3graph.collapse_edge 0 .MIDPOINT = .ok ((1, cleared), (added, g')) ∧
      g'.vertex_count = 2 ∧ 1 ∈ g'.ids :=
  ⟨rfl, _, _, _, rfl, rfl, by decide⟩

/-- Witness for the amended C3 at the concrete two-vertex graph. -/
theorem claim_C3_witness :
    WF C3graph ∧ C3edge ∈ C3graph.edges ∧ C3edge.src ≠ C3edge.tgt ∧
    (∃ cleared added g',
      C3graph.collapse_edge C3edge.id .MIDPOINT = .ok ((C3edge.tgt, cleared), (added, g')) ∧
      g'.ids = C3graph.ids ∧
      g'.edge_count + 1 ≤ C3graph.edge_count ∧
      (g'.getV C3edge.src).position
        = vscale (vadd (C3graph.getV C3edge.src).position
                       (C3graph.getV C3edge.tgt).position) (1/2)) :=
  ⟨by decide, by decide, by decide,
   claim_C3_collapse_edge_midpoint C3graph C3edge (by decide) (by decide) (by decide)
     (by decide)⟩

/-! ### Claims C4 and C5: the BFS of shortest_path -/

theorem find_updV_other (l : List (ℕ × VertexProperties)) (v v' : ℕ)
    (f : VertexProperties → VertexProperties) (hne : v' ≠ v) :
    (l.map (fun pr => if pr.1 = v then (pr.1, f pr.2) else pr)).find? (fun pr => pr.1 == v')
      = l.find? (fun pr => pr.1 == v') := by
  induction l with
  | nil => rfl
  | cons a t ih =>
    by_cases h : a.1 = v
    · have hb : ¬((a.1 == v') = true) := by simp [h, Ne.symm hne]
      rw [List.map_cons, if_pos h,
          List.find?_cons_of_neg (p := fun pr : ℕ × VertexProperties => pr.1 == v') _
            (by simpa using hb),
          List.find?_cons_of_neg (p := fun pr : ℕ × VertexProperties => pr.1 == v') _ hb]
      exact ih
    · by_cases hb : (a.1 == v') = true
      · rw [List.map_cons, if_neg h,
            List.find?_cons_of_pos (p := fun pr : ℕ × VertexProperties => pr.1 == v') _ hb,
            List.find?_cons_of_pos (p := fun pr : ℕ × VertexProperties => pr.1 == v') _ hb]
      · rw [List.map_cons, if_neg h,
            List.find?_cons_of_neg (p := fun pr : ℕ × VertexProperties => pr.1 == v') _ hb,
            List.find?_cons_of_neg (p := fun pr : ℕ × VertexProperties => pr.1 == v') _ hb]
        exact ih

theorem getV_updV_other (g : SkeletalGraph) (v v' : ℕ)
    (f : VertexProperties → VertexProperties) (hne : v' ≠ v) :
    (g.updV v f).getV v' = g.getV v' := by
  unfold SkeletalGraph.updV SkeletalGraph.getV
  dsimp only
  rw [find_updV_other _ _ _ _ hne]

theorem find_mapProps (l : List (ℕ × VertexProperties)) (v : ℕ)
    (f : VertexProperties → VertexProperties) :
    (l.map (fun pr => (pr.1, f pr.2))).find? (fun pr => pr.1 == v)
      = (l.find? (fun pr => pr.1 == v)).map (fun pr => (pr.1, f pr.2)) := by
  induction l with
  | nil => rfl
  | cons a t ih =>
    by_cases hb : (a.1 == v) = true
    · rw [List.map_cons,
          List.find?_cons_of_pos (p := fun pr : ℕ × VertexProperties => pr.1 == v) _ hb,
          List.find?_cons_of_pos (p := fun pr : ℕ × VertexProperties => pr.1 == v) _
            (by simpa using hb)]
      rfl
    · rw [List.map_cons,
          List.find?_cons_of_neg (p := fun pr : ℕ × VertexProperties => pr.1 == v) _ hb,
          List.find?_cons_of_neg (p := fun pr : ℕ × VertexProperties => pr.1 == v) _
            (by simpa using hb)]
      exact ih

theorem getV_resetBFS (g : SkeletalGraph) (v : ℕ) :
    (g.resetBFS).getV v
      = { g.getV v with BFS_path_cost := GRuintMax, BFS_parent := none } := by
  unfold SkeletalGraph.resetBFS SkeletalGraph.getV
  dsimp only
  rw [find_mapProps g.vertices v
        (fun p => { p with BFS_path_cost := GRuintMax, BFS_parent := none })]
  cases g.vertices.find? (fun pr => pr.1 == v) <;> rfl

theorem resetBFS_ids (g : SkeletalGraph) : (g.resetBFS).ids = g.ids := by
  unfold SkeletalGraph.resetBFS SkeletalGraph.ids
  rw [List.map_map]
  rfl

theorem resetBFS_edges (g : SkeletalGraph) : (g.resetBFS).edges = g.edges := rfl

theorem updV_vertex_count (g : SkeletalGraph) (v : ℕ)
    (f : VertexProperties → VertexProperties) :
    (g.updV v f).vertex_count = g.vertex_count := by
  unfold SkeletalGraph.updV SkeletalGraph.vertex_count
  rw [List.length_map]

/-- The invariant of the BFS loop of `shortest_path`, rooted at `to_`,
searching for `from_`, over the fixed topology of `g0`; `k` bounds every
assigned cost (it counts the executed iterations). -/
structure BfsInv (to_ from_ : ℕ) (g0 : SkeletalGraph) (h : SkeletalGraph) (q : List ℕ)
    (found : Bool) (k : ℕ) : Prop where
  edges_eq : h.edges = g0.edges
  ids_eq : h.ids = g0.ids
  cost_to : (h.getV to_).BFS_path_cost = 0
  par_to : (h.getV to_).BFS_parent = none
  par_ok : ∀ v p, (h.getV v).BFS_parent = some p →
      (p = to_ ∨ (h.getV p).BFS_parent ≠ none) ∧
      (h.getV p).BFS_path_cost < (h.getV v).BFS_path_cost ∧
      (h.getV v).BFS_path_cost ≤ k
  queue_ok : ∀ x ∈ q, x ∈ g0.ids ∧ (x = to_ ∨ (h.getV x).BFS_parent ≠ none)
  found_ok : found = true → (h.getV from_).BFS_parent ≠ none
  unpar : ∀ v, v ≠ to_ → (h.getV v).BFS_parent = none →
      (h.getV v).BFS_path_cost = GRuintMax

/-- Following parent links from any vertex that is the root `to_` or has
a parent terminates at the root, because every link strictly decreases
the cost and the root is the only parentless vertex reachable along
links. -/
theorem parentChain_last (g3 : SkeletalGraph) (to_ : ℕ)
    (hto : (g3.getV to_).BFS_parent = none)
    (hpar : ∀ v p, (g3.getV v).BFS_parent = some p →
      (p = to_ ∨ (g3.getV p).BFS_parent ≠ none) ∧
      (g3.getV p).BFS_path_cost < (g3.getV v).BFS_path_cost) :
    ∀ fuel p, (p = to_ ∨ (g3.getV p).BFS_parent ≠ none) →
      (g3.getV p).BFS_path_cost < fuel →
      (p :: SkeletalGraph.parentChain g3 fuel ((g3.getV p).BFS_parent)).getLast? = some to_ := by
  intro fuel
  induction fuel with
  | zero => intro p _ hc; omega
  | succ f ih =>
    intro p hp hc
    cases hpp : (g3.getV p).BFS_parent with
    | none =>
      rcases hp with rfl | hne
      · simp [SkeletalGraph.parentChain]
      · exact absurd hpp hne
    | some q =>
      obtain ⟨hq, hlt⟩ := hpar p q hpp
      have hq_cost : (g3.getV q).BFS_path_cost < f := by omega
      have hchain := ih q hq hq_cost
      show ((p :: q :: SkeletalGraph.parentChain g3 f ((g3.getV q).BFS_parent)).getLast?
          = some to_)
      rw [List.getLast?_cons_cons]
      exact hchain

/-- Generic fold preservation with membership information. -/
theorem foldl_preserve_mem {α β : Type} (P : α → Prop) (f : α → β → α) :
    ∀ (L : List β), (∀ st b, b ∈ L → P st → P (f st b)) →
      ∀ st, P st → P (L.foldl f st) := by
  intro L
  induction L with
  | nil => intro _ st h; exact h
  | cons a t ih =>
    intro hstep st h
    rw [List.foldl_cons]
    exact ih (fun st' b hb h' => hstep st' b (List.mem_cons_of_mem a hb) h') _
      (hstep st a (List.mem_cons_self a t) h)

/-- One `bfsVisit` step preserves the BFS invariant at bound `k + 1`,
together with the facts that the current vertex keeps cost `c` and is
the root or parented (so it may legally become a parent). -/
theorem bfsVisit_preserve (to_ from_ cur : ℕ) (c k : ℕ) (g0 : SkeletalGraph)
    (hck : c ≤ k) (hkM : k + 1 < GRuintMax) (nbr : ℕ) (hnbr : nbr ∈ g0.ids)
    (st : SkeletalGraph × List ℕ × Bool)
    (h : BfsInv to_ from_ g0 st.1 st.2.1 st.2.2 (k + 1) ∧
      (st.1.getV cur).BFS_path_cost = c ∧
      (cur = to_ ∨ (st.1.getV cur).BFS_parent ≠ none)) :
    BfsInv to_ from_ g0 (SkeletalGraph.bfsVisit from_ cur c st nbr).1
        (SkeletalGraph.bfsVisit from_ cur c st nbr).2.1
        (SkeletalGraph.bfsVisit from_ cur c st nbr).2.2 (k + 1) ∧
      ((SkeletalGraph.bfsVisit from_ cur c st nbr).1.getV cur).BFS_path_cost = c ∧
      (cur = to_ ∨
        ((SkeletalGraph.bfsVisit from_ cur c st nbr).1.getV cur).BFS_parent ≠ none) := by
  obtain ⟨g, q, found⟩ := st
  obtain ⟨hinv, hcost, hcur⟩ := h
  have hc32 : c + 1 < 4294967296 := by
    unfold GRuintMax at hkM
    omega
  have hu : SkeletalGraph.u32succ c = c + 1 := by
    unfold SkeletalGraph.u32succ
    omega
  unfold SkeletalGraph.bfsVisit
  dsimp only
  by_cases hskip : (g.getV cur).BFS_parent = some nbr
  · rw [if_neg (not_not_intro hskip)]
    exact ⟨hinv, hcost, hcur⟩
  · rw [if_pos hskip]
    have hq1mem : ∀ x, x ∈ (if (g.getV nbr).BFS_parent = none then q ++ [nbr] else q) →
        x ∈ q ∨ (x = nbr ∧ (g.getV nbr).BFS_parent = none) := by
      intro x hx
      by_cases hpush : (g.getV nbr).BFS_parent = none
      · rw [if_pos hpush] at hx
        rcases List.mem_append.mp hx with hxq | hxn
        · exact Or.inl hxq
        · exact Or.inr ⟨List.mem_singleton.mp hxn, hpush⟩
      · rw [if_neg hpush] at hx
        exact Or.inl hx
    by_cases hupd : SkeletalGraph.u32succ c < (g.getV nbr).BFS_path_cost
    · rw [if_pos hupd]
      dsimp only
      have hcur_ne : cur ≠ nbr := by
        intro hEq
        rw [hu, ← hEq, hcost] at hupd
        omega
      have hto_ne : to_ ≠ nbr := by
        intro hEq
        rw [hu, ← hEq, hinv.cost_to] at hupd
        omega
      have hnbr_mem : nbr ∈ g.ids := by
        rw [hinv.ids_eq]
        exact hnbr
      have hgV : ∀ v, v ≠ nbr →
          (g.updV nbr (fun p =>
            { p with BFS_path_cost := SkeletalGraph.u32succ c, BFS_parent := some cur })).getV v
            = g.getV v :=
        fun v hv => getV_updV_other g nbr v _ hv
      have hVnbr :
          (g.updV nbr (fun p =>
            { p with BFS_path_cost := SkeletalGraph.u32succ c, BFS_parent := some cur })).getV nbr
            = { g.getV nbr with
                  BFS_path_cost := SkeletalGraph.u32succ c, BFS_parent := some cur } :=
        getV_updV_self g nbr _ hnbr_mem
      refine ⟨⟨?_, ?_, ?_, ?_, ?_, ?_, ?_, ?_⟩, ?_, ?_⟩
      · rw [updV_edges]
        exact hinv.edges_eq
      · rw [updV_ids]
        exact hinv.ids_eq
      · rw [hgV to_ hto_ne]
        exact hinv.cost_to
      · rw [hgV to_ hto_ne]
        exact hinv.par_to
      · intro v p hvp
        by_cases hv : v = nbr
        · subst hv
          rw [hVnbr] at hvp
          have hp : some cur = some p := hvp
          obtain rfl : cur = p := Option.some_injective _ hp
          refine ⟨?_, ?_, ?_⟩
          · rcases hcur with hh | hh
            · exact Or.inl hh
            · refine Or.inr ?_
              rw [hgV cur hcur_ne]
              exact hh
          · rw [hgV cur hcur_ne, hVnbr]
            show (g.getV cur).BFS_path_cost < SkeletalGraph.u32succ c
            rw [hcost, hu]
            omega
          · rw [hVnbr]
            show SkeletalGraph.u32succ c ≤ k + 1
            rw [hu]
            omega
        · rw [hgV v hv] at hvp
          obtain ⟨h1, h2, h3⟩ := hinv.par_ok v p hvp
          by_cases hpn : p = nbr
          · subst hpn
            refine ⟨Or.inr ?_, ?_, ?_⟩
            · rw [hVnbr]
              exact Option.some_ne_none cur
            · rw [hVnbr, hgV v hv]
              show SkeletalGraph.u32succ c < (g.getV v).BFS_path_cost
              exact Nat.lt_trans hupd h2
            · rw [hgV v hv]
              exact h3
          · refine ⟨?_, ?_, ?_⟩
            · rcases h1 with hh | hh
              · exact Or.inl hh
              · refine Or.inr ?_
                rw [hgV p hpn]
                exact hh
            · rw [hgV p hpn, hgV v hv]
              exact h2
            · rw [hgV v hv]
              exact h3
      · intro x hx
        rcases hq1mem x hx with hxq | ⟨rfl, _⟩
        · obtain ⟨hxid, hxst⟩ := hinv.queue_ok x hxq
          refine ⟨hxid, ?_⟩
          rcases hxst with hxt | hxp
          · exact Or.inl hxt
          · by_cases hxn : x = nbr
            · subst hxn
              refine Or.inr ?_
              rw [hVnbr]
              exact Option.some_ne_none cur
            · refine Or.inr ?_
              rw [hgV x hxn]
              exact hxp
        · refine ⟨hnbr, Or.inr ?_⟩
          rw [hVnbr]
          exact Option.some_ne_none cur
      · intro hf
        simp only [Bool.or_eq_true, beq_iff_eq] at hf
        by_cases hfn : from_ = nbr
        · rw [hfn, hVnbr]
          exact Option.some_ne_none cur
        · rw [hgV from_ hfn]
          rcases hf with hf | hf
          · exact hinv.found_ok hf
          · exact absurd hf.symm hfn
      · intro v hvt hvnone
        by_cases hvn : v = nbr
        · subst hvn
          rw [hVnbr] at hvnone
          exact absurd hvnone (Option.some_ne_none cur)
        · rw [hgV v hvn] at hvnone
          rw [hgV v hvn]
          exact hinv.unpar v hvt hvnone
      · rw [hgV cur hcur_ne]
        exact hcost
      · rcases hcur with hh | hh
        · exact Or.inl hh
        · refine Or.inr ?_
          rw [hgV cur hcur_ne]
          exact hh
    · rw [if_neg hupd]
      dsimp only
      refine ⟨⟨hinv.edges_eq, hinv.ids_eq, hinv.cost_to, hinv.par_to, hinv.par_ok, ?_,
        hinv.found_ok, hinv.unpar⟩, hcost, hcur⟩
      intro x hx
      rcases hq1mem x hx with hxq | ⟨rfl, hpush⟩
      · exact hinv.queue_ok x hxq
      · refine ⟨hnbr, ?_⟩
        by_cases hxt : x = to_
        · exact Or.inl hxt
        · exfalso
          have hcx := hinv.unpar x hxt hpush
          rw [hu, hcx] at hupd
          omega

/-- One `bfsIter` iteration (popping `cur` in front of `rest`) carries the
BFS invariant from bound `k` to bound `k + 1`. -/
theorem bfsIter_preserve (to_ from_ : ℕ) (k : ℕ) (g0 : SkeletalGraph)
    (hkM : k + 1 < GRuintMax)
    (hends : ∀ ed ∈ g0.edges, ed.src ∈ g0.ids ∧ ed.tgt ∈ g0.ids)
    (g : SkeletalGraph) (cur : ℕ) (rest : List ℕ) (found : Bool)
    (hinv : BfsInv to_ from_ g0 g (cur :: rest) found k) :
    BfsInv to_ from_ g0 (SkeletalGraph.bfsIter from_ g cur rest found).1
        (SkeletalGraph.bfsIter from_ g cur rest found).2.1
        (SkeletalGraph.bfsIter from_ g cur rest found).2.2 (k + 1) := by
  obtain ⟨hcurid, hcurst⟩ := hinv.queue_ok cur (List.mem_cons_self cur rest)
  have hck : (g.getV cur).BFS_path_cost ≤ k := by
    rcases hcurst with rfl | hp
    · rw [hinv.cost_to]
      omega
    · rcases hpp : (g.getV cur).BFS_parent with _ | p
      · exact absurd hpp hp
      · exact (hinv.par_ok cur p hpp).2.2
  have hinv1 : BfsInv to_ from_ g0 g rest found (k + 1) :=
    ⟨hinv.edges_eq, hinv.ids_eq, hinv.cost_to, hinv.par_to,
     fun v p hvp => by
       obtain ⟨h1, h2, h3⟩ := hinv.par_ok v p hvp
       exact ⟨h1, h2, Nat.le_succ_of_le h3⟩,
     fun x hx => hinv.queue_ok x (List.mem_cons_of_mem cur hx),
     hinv.found_ok, hinv.unpar⟩
  have hmem_in : ∀ nbr ∈ (g.in_edges cur).map (fun ed => ed.src), nbr ∈ g0.ids := by
    intro nbr hn
    rcases List.mem_map.mp hn with ⟨ed, hed, rfl⟩
    have hed' : ed ∈ g.edges := List.mem_of_mem_filter hed
    rw [hinv.edges_eq] at hed'
    exact (hends ed hed').1
  have hmem_out : ∀ nbr ∈ (g.out_edges cur).map (fun ed => ed.tgt), nbr ∈ g0.ids := by
    intro nbr hn
    rcases List.mem_map.mp hn with ⟨ed, hed, rfl⟩
    have hed' : ed ∈ g.edges := List.mem_of_mem_filter hed
    rw [hinv.edges_eq] at hed'
    exact (hends ed hed').2
  have key1 := foldl_preserve_mem
    (fun st => BfsInv to_ from_ g0 st.1 st.2.1 st.2.2 (k + 1) ∧
      (st.1.getV cur).BFS_path_cost = (g.getV cur).BFS_path_cost ∧
      (cur = to_ ∨ (st.1.getV cur).BFS_parent ≠ none))
    (SkeletalGraph.bfsVisit from_ cur ((g.getV cur).BFS_path_cost))
    ((g.in_edges cur).map (fun ed => ed.src))
    (fun st nbr hn hP =>
      bfsVisit_preserve to_ from_ cur ((g.getV cur).BFS_path_cost) k g0 hck hkM nbr
        (hmem_in nbr hn) st hP)
    (g, rest, found) ⟨hinv1, rfl, hcurst⟩
  have key2 := foldl_preserve_mem
    (fun st => BfsInv to_ from_ g0 st.1 st.2.1 st.2.2 (k + 1) ∧
      (st.1.getV cur).BFS_path_cost = (g.getV cur).BFS_path_cost ∧
      (cur = to_ ∨ (st.1.getV cur).BFS_parent ≠ none))
    (SkeletalGraph.bfsVisit from_ cur ((g.getV cur).BFS_path_cost))
    ((g.out_edges cur).map (fun ed => ed.tgt))
    (fun st nbr hn hP =>
      bfsVisit_preserve to_ from_ cur ((g.getV cur).BFS_path_cost) k g0 hck hkM nbr
        (hmem_out nbr hn) st hP)
    (((g.in_edges cur).map (fun ed => ed.src)).foldl
      (SkeletalGraph.bfsVisit from_ cur ((g.getV cur).BFS_path_cost)) (g, rest, found))
    key1
  exact key2.1

/-- The BFS loop keeps the invariant; at exit the bound is at most the
initial bound plus the executed iterations (each iteration raises the
bound by exactly 1 and consumes one unit of fuel). -/
theorem bfsLoop_inv (to_ from_ : ℕ) (g0 : SkeletalGraph) (n : ℕ)
    (hends : ∀ ed ∈ g0.edges, ed.src ∈ g0.ids ∧ ed.tgt ∈ g0.ids)
    (hM : n + 2 < GRuintMax) :
    ∀ (fuel : ℕ) (g : SkeletalGraph) (q : List ℕ) (found : Bool) (k : ℕ),
      k + fuel ≤ n →
      BfsInv to_ from_ g0 g q found k →
      ∃ k' q', k' ≤ n ∧
        BfsInv to_ from_ g0 (SkeletalGraph.bfsLoop from_ fuel g q found).1 q'
          (SkeletalGraph.bfsLoop from_ fuel g q found).2 k' := by
  intro fuel
  induction fuel with
  | zero =>
    intro g q found k hkn hinv
    exact ⟨k, q, by omega, hinv⟩
  | succ fuel ih =>
    intro g q found k hkn hinv
    cases q with
    | nil => exact ⟨k, [], by omega, hinv⟩
    | cons cur rest =>
      have hkM : k + 1 < GRuintMax := by omega
      have hst := bfsIter_preserve to_ from_ k g0 hkM hends g cur rest found hinv
      exact ih (SkeletalGraph.bfsIter from_ g cur rest found).1
        (SkeletalGraph.bfsIter from_ g cur rest found).2.1
        (SkeletalGraph.bfsIter from_ g cur rest found).2.2 (k + 1) (by omega) hst

/-- The invariant holds when the BFS loop starts: marks reset, the root
`to_` at cost 0, the queue holding exactly the root. -/
theorem bfsInv_init (to_ from_ : ℕ) (g : SkeletalGraph) (hb : to_ ∈ g.ids) :
    BfsInv to_ from_ g
      ((g.resetBFS).updV to_ (fun p => { p with BFS_path_cost := 0 })) [to_] false 0 := by
  have hb' : to_ ∈ (g.resetBFS).ids := by
    rw [resetBFS_ids]
    exact hb
  have hVother : ∀ v, v ≠ to_ →
      (((g.resetBFS).updV to_ (fun p => { p with BFS_path_cost := 0 })).getV v)
        = { g.getV v with BFS_path_cost := GRuintMax, BFS_parent := none } := by
    intro v hv
    rw [getV_updV_other _ _ _ _ hv, getV_resetBFS]
  have hVto :
      (((g.resetBFS).updV to_ (fun p => { p with BFS_path_cost := 0 })).getV to_)
        = { g.getV to_ with BFS_path_cost := 0, BFS_parent := none } := by
    rw [getV_updV_self _ _ _ hb', getV_resetBFS]
  have hpar_none : ∀ v,
      (((g.resetBFS).updV to_ (fun p => { p with BFS_path_cost := 0 })).getV v).BFS_parent
        = none := by
    intro v
    by_cases hv : v = to_
    · rw [hv, hVto]
    · rw [hVother v hv]
  refine ⟨?_, ?_, ?_, ?_, ?_, ?_, ?_, ?_⟩
  · rw [updV_edges, resetBFS_edges]
  · rw [updV_ids, resetBFS_ids]
  · rw [hVto]
  · rw [hVto]
  · intro v p hvp
    rw [hpar_none v] at hvp
    exact absurd hvp (Option.noConfusion)
  · intro x hx
    obtain rfl : x = to_ := List.mem_singleton.mp hx
    exact ⟨hb, Or.inl rfl⟩
  · intro hf
    simp at hf
  · intro v hv _
    rw [hVother v hv]

/-- C5: `shortest_path(x, x)` returns the one-element list `[x]`, and
whenever the BFS finds a path from `a` to `b` (an `ok` result), the
returned list starts at `a` and ends at `b`.  The endpoint facts need the
target to be live, the edge endpoints to be live (well-formedness), and
the iteration cap to stay below the `GRuint` cost sentinel. -/
theorem claim_C5_shortest_path_endpoints (g : SkeletalGraph) (x a b : ℕ) (path : List ℕ)
    (hWF : WF g) (hb : b ∈ g.ids)
    (hM : 2 * g.vertex_count + 2 < GRuintMax)
    (hok : (g.shortest_path a b).1 = .ok path) :
    (g.shortest_path x x).1 = .ok [x] ∧ path.head? = some a ∧ path.getLast? = some b := by
  refine ⟨?_, ?_⟩
  · unfold SkeletalGraph.shortest_path
    rw [if_pos rfl]
  by_cases hab : a = b
  · subst hab
    unfold SkeletalGraph.shortest_path at hok
    rw [if_pos rfl] at hok
    have hpath : [a] = path := by
      simpa using hok
    rw [← hpath]
    exact ⟨rfl, rfl⟩
  · obtain ⟨k', q', hk', hinvL⟩ :=
      bfsLoop_inv b a g (2 * g.vertex_count) (fun ed hed => hWF.2.2.2.2 ed hed) hM
        (2 * g.vertex_count)
        ((g.resetBFS).updV b (fun p => { p with BFS_path_cost := 0 })) [b] false 0
        (by omega) (bfsInv_init b a g hb)
    unfold SkeletalGraph.shortest_path at hok
    rw [if_neg hab] at hok
    dsimp only at hok
    cases hr2 : (SkeletalGraph.bfsLoop a (2 * g.vertex_count)
        ((g.resetBFS).updV b (fun p => { p with BFS_path_cost := 0 })) [b] false).2 with
    | false =>
      rw [hr2] at hok
      simp at hok
    | true =>
      rw [hr2] at hok
      simp only [if_true] at hok
      have hpath : a :: SkeletalGraph.parentChain
          (SkeletalGraph.bfsLoop a (2 * g.vertex_count)
            ((g.resetBFS).updV b (fun p => { p with BFS_path_cost := 0 })) [b] false).1
          (2 * g.vertex_count + 2)
          (((SkeletalGraph.bfsLoop a (2 * g.vertex_count)
            ((g.resetBFS).updV b (fun p => { p with BFS_path_cost := 0 })) [b] false).1.getV
              a).BFS_parent) = path := by
        simpa using hok
      rw [← hpath]
      refine ⟨rfl, ?_⟩
      have hfound := hinvL.found_ok hr2
      obtain ⟨pa, hpa⟩ : ∃ pa,
          (((SkeletalGraph.bfsLoop a (2 * g.vertex_count)
            ((g.resetBFS).updV b (fun p => { p with BFS_path_cost := 0 })) [b] false).1.getV
              a).BFS_parent) = some pa := by
        rcases hpp : (((SkeletalGraph.bfsLoop a (2 * g.vertex_count)
            ((g.resetBFS).updV b (fun p => { p with BFS_path_cost := 0 })) [b] false).1.getV
              a).BFS_parent) with _ | pa
        · exact absurd hpp hfound
        · exact ⟨pa, rfl⟩
      have hca := (hinvL.par_ok a pa hpa).2.2
      exact parentChain_last _ b hinvL.par_to
        (fun v p hvp => ⟨(hinvL.par_ok v p hvp).1, (hinvL.par_ok v p hvp).2.1⟩)
        (2 * g.vertex_count + 2) a (Or.inr hfound) (by omega)

/-- A two-vertex graph with a single edge `0 → 1`, used to exercise the
shortest-path theorems on a concrete run. -/
def C5graph : SkeletalGraph :=
  { nextVertexId := 2, nextEdgeId := 1,
    vertices := [(0, {}), (1, { position := (1, 0, 0) })],
    edges := [⟨0, 0, 1, {}⟩],
    edge_spline_count := 2 }

theorem claim_C5_witness :
    WF C5graph ∧ (1 : ℕ) ∈ C5graph.ids ∧ 2 * C5graph.vertex_count + 2 < GRuintMax ∧
      (C5graph.shortest_path 0 1).1 = .ok [0, 1] ∧
      ((C5graph.shortest_path 7 7).1 = .ok [7] ∧
        ([0, 1] : List ℕ).head? = some 0 ∧ ([0, 1] : List ℕ).getLast? = some 1) :=
  ⟨by decide, by decide, by decide, rfl,
   claim_C5_shortest_path_endpoints C5graph 7 0 1 [0, 1]
     (by decide) (by decide) (by decide) rfl⟩

/-- Two isolated vertices: `shortest_path 0 1` finds no path and throws. -/
def C4graph : SkeletalGraph :=
  { nextVertexId := 2, vertices := [(0, {}), (1, {})] }

/-- C4 counterexample: on the no-path (throwing) branch the BFS marks are
NOT cleared — the root keeps cost 0 instead of the infinity sentinel,
because the source throws `invalid_argument` (line 395) before reaching
the cleanup loop (lines 409-415). -/
theorem claim_C4_counterexample :
    (C4graph.shortest_path 0 1).1 = .error () ∧
      ((C4graph.shortest_path 0 1).2.getV 1).BFS_path_cost = 0 ∧
      ((C4graph.shortest_path 0 1).2.getV 1).BFS_path_cost ≠ GRuintMax :=
  ⟨rfl, rfl, by decide⟩

/-- C4 (amended): `shortest_path` clears every vertex's BFS marks only on
the SUCCESSFUL non-trivial runs — when it returns a path for distinct
endpoints it ends with the cleanup loop, so every `BFS_path_cost` is the
infinity sentinel and every `BFS_parent` null; when it throws `NoPath` the
throw happens before the cleanup and the marks of the aborted search stay
behind, and `shortest_path(x, x)` returns before touching any mark. -/
theorem claim_C4_success_clears_marks (g : SkeletalGraph) (a b : ℕ) (path : List ℕ)
    (hab : a ≠ b) (hok : (g.shortest_path a b).1 = .ok path) (v : ℕ) :
    ((g.shortest_path a b).2.getV v).BFS_path_cost = GRuintMax ∧
      ((g.shortest_path a b).2.getV v).BFS_parent = none := by
  unfold SkeletalGraph.shortest_path at hok ⊢
  rw [if_neg hab] at hok ⊢
  dsimp only at hok ⊢
  cases hr2 : (SkeletalGraph.bfsLoop a (2 * g.vertex_count)
      ((g.resetBFS).updV b (fun p => { p with BFS_path_cost := 0 })) [b] false).2 with
  | false =>
    rw [hr2] at hok
    simp at hok
  | true =>
    rw [if_pos rfl]
    dsimp only
    rw [getV_resetBFS]
    exact ⟨rfl, rfl⟩

/-- A two-vertex graph with one edge, on which `shortest_path 0 1`
succeeds. -/
def C4wgraph : SkeletalGraph :=
  { nextVertexId := 2, nextEdgeId := 1,
    vertices := [(0, {}), (1, {})],
    edges := [⟨0, 0, 1, {}⟩],
    edge_spline_count := 2 }

theorem claim_C4_witness :
    (0 : ℕ) ≠ 1 ∧ (C4wgraph.shortest_path 0 1).1 = .ok [0, 1] ∧
      (((C4wgraph.shortest_path 0 1).2.getV 0).BFS_path_cost = GRuintMax ∧
        ((C4wgraph.shortest_path 0 1).2.getV 0).BFS_parent = none) :=
  ⟨by decide, rfl, claim_C4_success_clears_marks C4wgraph 0 1 [0, 1] (by decide) rfl 0⟩

/-- Modelled from the spec: one undirected step of P7's reachability
relation — some stored edge joins `u` and `v`, in either direction
(parallel edges add nothing new). -/
def undirectedAdj (E : List EdgeEntry) (u v : ℕ) : Prop :=
  ∃ ed ∈ E, (ed.src = u ∧ ed.tgt = v) ∨ (ed.src = v ∧ ed.tgt = u)

/-- Modelled from the spec: the undirected reachability relation of P7,
the reflexive-transitive closure of single undirected steps. -/
def undirectedReach (E : List EdgeEntry) : ℕ → ℕ → Prop :=
  Relation.ReflTransGen (undirectedAdj E)

theorem undirectedAdj_symm (E : List EdgeEntry) (u v : ℕ) :
    undirectedAdj E u v → undirectedAdj E v u := by
  rintro ⟨ed, hed, h | h⟩
  · exact ⟨ed, hed, Or.inr h⟩
  · exact ⟨ed, hed, Or.inl h⟩

theorem undirectedReach_symm (E : List EdgeEntry) (u v : ℕ) :
    undirectedReach E u v → undirectedReach E v u := by
  intro h
  induction h with
  | refl => exact Relation.ReflTransGen.refl
  | tail _ hbc ih => exact Relation.ReflTransGen.head (undirectedAdj_symm E _ _ hbc) ih

/-- The spanning-tree mark of a vertex, read through `getV`. -/
def marked (g : SkeletalGraph) (v : ℕ) : Prop :=
  (g.getV v).is_in_spanning_tree = true

theorem getV_eq_default_of_not_mem (g : SkeletalGraph) (v : ℕ) (hv : v ∉ g.ids) :
    g.getV v = default := by
  unfold SkeletalGraph.getV
  have hfind : g.vertices.find? (fun pr => pr.1 == v) = none := by
    apply List.find?_eq_none.mpr
    intro pr hpr hc
    have hpv : pr.1 = v := by simpa using hc
    exact hv (hpv ▸ List.mem_map_of_mem (fun x => x.1) hpr)
  rw [hfind]
  rfl

theorem not_marked_of_not_mem (g : SkeletalGraph) (v : ℕ) (hv : v ∉ g.ids) :
    ¬ marked g v := by
  unfold marked
  rw [getV_eq_default_of_not_mem g v hv]
  decide

/-- The body of the outer loop of `count_connected_components`, factored
out of `cccLoop` (to which it is definitionally equal) for the proofs. -/
def cccStep (acc : ℕ × SkeletalGraph × Bool) (v : ℕ) : ℕ × SkeletalGraph × Bool :=
  if (acc.2.1.getV v).is_in_spanning_tree then acc
  else
    let r := acc.2.1.explore_from_vertex v
    (acc.1 + 1, r.1, acc.2.2 && r.2.isEmpty)

theorem cccLoop_eq_foldl (g : SkeletalGraph) (order : List ℕ) :
    SkeletalGraph.cccLoop g order = order.foldl cccStep (0, g, true) := rfl

theorem cccFold_flag_mono (order : List ℕ) :
    ∀ acc : ℕ × SkeletalGraph × Bool, acc.2.2 = false →
      (order.foldl cccStep acc).2.2 = false := by
  induction order with
  | nil => intro acc h; exact h
  | cons v rest ih =>
    intro acc h
    rw [List.foldl_cons]
    apply ih
    unfold cccStep
    by_cases hm : (acc.2.1.getV v).is_in_spanning_tree = true
    · rw [if_pos hm]
      exact h
    · rw [if_neg hm]
      dsimp only
      rw [h]
      rfl

/-- The invariant of the exploration loop over a fixed topology `(E, I)`:
the marks only grow, every newly marked vertex is undirected-reachable
from `s`, every marked vertex's neighbourhood is marked or queued, and
`s` itself is queued or marked. -/
theorem exploreLoop_inv (E : List EdgeEntry) (I : List ℕ) (s : ℕ) (g0 : SkeletalGraph)
    (hends : ∀ ed ∈ E, ed.src ∈ I ∧ ed.tgt ∈ I) :
    ∀ (fuel : ℕ) (g : SkeletalGraph) (q : List ℕ),
      g.edges = E → g.ids = I →
      (∀ x ∈ q, x ∈ I ∧ undirectedReach E x s) →
      (∀ v, marked g v → marked g0 v ∨ undirectedReach E v s) →
      (∀ v, marked g0 v → marked g v) →
      (∀ v, marked g v → ∀ w, undirectedAdj E v w → w ∈ I → marked g w ∨ w ∈ q) →
      (s ∈ q ∨ marked g s) →
      ∀ g' q', SkeletalGraph.exploreLoop fuel g q = (g', q') →
        g'.edges = E ∧ g'.ids = I ∧
        (∀ v, marked g' v → marked g0 v ∨ undirectedReach E v s) ∧
        (∀ v, marked g0 v → marked g' v) ∧
        (∀ v, marked g' v → ∀ w, undirectedAdj E v w → w ∈ I → marked g' w ∨ w ∈ q') ∧
        (s ∈ q' ∨ marked g' s) := by
  intro fuel
  induction fuel with
  | zero =>
    intro g q hE hI hQ hMs hMm hCl hs g' q' hrun
    injection hrun with h1 h2
    subst h1
    subst h2
    exact ⟨hE, hI, hMs, hMm, hCl, hs⟩
  | succ fuel ih =>
    intro g q hE hI hQ hMs hMm hCl hs g' q' hrun
    cases q with
    | nil =>
      injection hrun with h1 h2
      subst h1
      subst h2
      exact ⟨hE, hI, hMs, hMm, hCl, hs⟩
    | cons cur rest =>
      rw [show SkeletalGraph.exploreLoop (fuel + 1) g (cur :: rest)
          = (if (g.getV cur).is_in_spanning_tree then SkeletalGraph.exploreLoop fuel g rest
             else SkeletalGraph.exploreLoop fuel
               (g.updV cur (fun p => { p with is_in_spanning_tree := true }))
               (rest
                 ++ ((g.updV cur (fun p =>
                     { p with is_in_spanning_tree := true })).in_edges cur).map (fun ed => ed.src)
                 ++ ((g.updV cur (fun p =>
                     { p with is_in_spanning_tree := true })).out_edges cur).map
                       (fun ed => ed.tgt)))
        from rfl] at hrun
      by_cases hm : (g.getV cur).is_in_spanning_tree = true
      · rw [if_pos hm] at hrun
        refine ih g rest hE hI (fun x hx => hQ x (List.mem_cons_of_mem _ hx)) hMs hMm
          ?_ ?_ g' q' hrun
        · intro v hv w hadj hwI
          rcases hCl v hv w hadj hwI with h | h
          · exact Or.inl h
          · rcases List.mem_cons.mp h with rfl | h'
            · exact Or.inl hm
            · exact Or.inr h'
        · rcases hs with h | h
          · rcases List.mem_cons.mp h with rfl | h'
            · exact Or.inr hm
            · exact Or.inl h'
          · exact Or.inr h
      · rw [if_neg hm] at hrun
        have hcurI : cur ∈ I := (hQ cur (List.mem_cons_self cur rest)).1
        have hcurR : undirectedReach E cur s := (hQ cur (List.mem_cons_self cur rest)).2
        have hcur_mem : cur ∈ g.ids := by
          rw [hI]
          exact hcurI
        have hMk1 : marked (g.updV cur (fun p => { p with is_in_spanning_tree := true })) cur := by
          unfold marked
          rw [getV_updV_self _ _ _ hcur_mem]
        have hMk2 : ∀ v, v ≠ cur →
            (marked (g.updV cur (fun p => { p with is_in_spanning_tree := true })) v
              ↔ marked g v) := by
          intro v hv
          unfold marked
          rw [getV_updV_other _ _ _ _ hv]
        have hMk3 : ∀ v,
            marked (g.updV cur (fun p => { p with is_in_spanning_tree := true })) v →
              v = cur ∨ marked g v := by
          intro v hv
          by_cases hvc : v = cur
          · exact Or.inl hvc
          · exact Or.inr ((hMk2 v hvc).mp hv)
        have hMk4 : ∀ v, marked g v →
            marked (g.updV cur (fun p => { p with is_in_spanning_tree := true })) v := by
          intro v hv
          by_cases hvc : v = cur
          · rw [hvc]
            exact hMk1
          · exact (hMk2 v hvc).mpr hv
        have hins : ∀ x ∈ ((g.updV cur (fun p =>
            { p with is_in_spanning_tree := true })).in_edges cur).map (fun ed => ed.src),
            ∃ ed ∈ E, ed.src = x ∧ ed.tgt = cur := by
          intro x hx
          rcases List.mem_map.mp hx with ⟨ed, hed, rfl⟩
          have h2 := List.mem_filter.mp hed
          refine ⟨ed, ?_, rfl, by simpa using h2.2⟩
          rw [← hE]
          exact h2.1
        have houts : ∀ x ∈ ((g.updV cur (fun p =>
            { p with is_in_spanning_tree := true })).out_edges cur).map (fun ed => ed.tgt),
            ∃ ed ∈ E, ed.src = cur ∧ ed.tgt = x := by
          intro x hx
          rcases List.mem_map.mp hx with ⟨ed, hed, rfl⟩
          have h2 := List.mem_filter.mp hed
          refine ⟨ed, ?_, by simpa using h2.2, rfl⟩
          rw [← hE]
          exact h2.1
        have hmemq1 : ∀ x, x ∈ (rest
              ++ ((g.updV cur (fun p =>
                  { p with is_in_spanning_tree := true })).in_edges cur).map (fun ed => ed.src)
              ++ ((g.updV cur (fun p =>
                  { p with is_in_spanning_tree := true })).out_edges cur).map
                    (fun ed => ed.tgt)) →
            x ∈ rest ∨ (∃ ed ∈ E, ed.src = x ∧ ed.tgt = cur)
              ∨ (∃ ed ∈ E, ed.src = cur ∧ ed.tgt = x) := by
          intro x hx
          rcases List.mem_append.mp hx with hx1 | hx2
          · rcases List.mem_append.mp hx1 with hx3 | hx4
            · exact Or.inl hx3
            · exact Or.inr (Or.inl (hins x hx4))
          · exact Or.inr (Or.inr (houts x hx2))
        refine ih (g.updV cur (fun p => { p with is_in_spanning_tree := true })) _
          (by rw [updV_edges]; exact hE) (by rw [updV_ids]; exact hI)
          ?_ ?_ ?_ ?_ ?_ g' q' hrun
        · intro x hx
          rcases hmemq1 x hx with h | ⟨ed, hed, h1, h2⟩ | ⟨ed, hed, h1, h2⟩
          · exact hQ x (List.mem_cons_of_mem _ h)
          · refine ⟨h1 ▸ (hends ed hed).1, ?_⟩
            exact Relation.ReflTransGen.head ⟨ed, hed, Or.inl ⟨h1, h2⟩⟩ hcurR
          · refine ⟨h2 ▸ (hends ed hed).2, ?_⟩
            exact Relation.ReflTransGen.head ⟨ed, hed, Or.inr ⟨h1, h2⟩⟩ hcurR
        · intro v hv
          rcases hMk3 v hv with rfl | h
          · exact Or.inr hcurR
          · exact hMs v h
        · intro v hv
          exact hMk4 v (hMm v hv)
        · intro v hv w hadj hwI
          rcases hMk3 v hv with rfl | hvg
          · rcases hadj with ⟨ed, hed, ⟨h1, h2⟩ | ⟨h1, h2⟩⟩
            · refine Or.inr (List.mem_append.mpr (Or.inr ?_))
              refine List.mem_map.mpr ⟨ed, ?_, h2⟩
              refine List.mem_filter.mpr ⟨?_, by simpa using h1⟩
              show ed ∈ g.edges
              rw [hE]
              exact hed
            · refine Or.inr (List.mem_append.mpr (Or.inl (List.mem_append.mpr (Or.inr ?_))))
              refine List.mem_map.mpr ⟨ed, ?_, h1⟩
              refine List.mem_filter.mpr ⟨?_, by simpa using h2⟩
              show ed ∈ g.edges
              rw [hE]
              exact hed
          · rcases hCl v hvg w hadj hwI with h | h
            · exact Or.inl (hMk4 w h)
            · rcases List.mem_cons.mp h with rfl | h'
              · exact Or.inl hMk1
              · exact Or.inr (List.mem_append.mpr (Or.inl (List.mem_append.mpr (Or.inl h'))))
        · rcases hs with h | h
          · rcases List.mem_cons.mp h with rfl | h'
            · exact Or.inr hMk1
            · exact Or.inl (List.mem_append.mpr (Or.inl (List.mem_append.mpr (Or.inl h'))))
          · exact Or.inr (hMk4 s h)

/-- When `explore_from_vertex` drains its queue within the iteration cap,
the resulting marks are exactly the old marks plus the undirected
reachability class of the start vertex — provided the old marked set was
closed under undirected adjacency. -/
theorem explore_from_vertex_drained (g : SkeletalGraph) (s : ℕ)
    (hends : ∀ ed ∈ g.edges, ed.src ∈ g.ids ∧ ed.tgt ∈ g.ids)
    (hcl : ∀ v, marked g v → ∀ w, undirectedAdj g.edges v w → w ∈ g.ids → marked g w)
    (hs : s ∈ g.ids)
    (hdr : (g.explore_from_vertex s).2 = []) :
    (g.explore_from_vertex s).1.edges = g.edges ∧
      (g.explore_from_vertex s).1.ids = g.ids ∧
      (∀ v, marked (g.explore_from_vertex s).1 v ↔
        (marked g v ∨ (v ∈ g.ids ∧ undirectedReach g.edges v s))) := by
  obtain ⟨g', q', hrun⟩ : ∃ g' q',
      SkeletalGraph.exploreLoop (g.vertex_count * 2) g [s] = (g', q') := ⟨_, _, rfl⟩
  have hres : g.explore_from_vertex s = (g', q') := hrun
  obtain ⟨hE', hI', hMs', hMm', hCl', hs'⟩ :=
    exploreLoop_inv g.edges g.ids s g hends (g.vertex_count * 2) g [s] rfl rfl
      (fun x hx => by
        obtain rfl := List.mem_singleton.mp hx
        exact ⟨hs, Relation.ReflTransGen.refl⟩)
      (fun v hv => Or.inl hv) (fun v hv => hv)
      (fun v hv w hadj hwI => Or.inl (hcl v hv w hadj hwI))
      (Or.inl (List.mem_singleton.mpr rfl))
      g' q' hrun
  have hq' : q' = [] := by
    rw [hres] at hdr
    exact hdr
  rw [hres]
  refine ⟨hE', hI', ?_⟩
  have hsmarked : marked g' s := by
    rcases hs' with h' | h'
    · rw [hq'] at h'
      cases h'
    · exact h'
  have hclosed : ∀ a, marked g' a → ∀ w, undirectedAdj g.edges a w → w ∈ g.ids →
      marked g' w := by
    intro a ha w hw hwI
    rcases hCl' a ha w hw hwI with h' | h'
    · exact h'
    · rw [hq'] at h'
      cases h'
  have key : ∀ a, undirectedReach g.edges a s → a ∈ g.ids → marked g' a := by
    intro a hr
    induction hr using Relation.ReflTransGen.head_induction_on with
    | refl => intro _; exact hsmarked
    | @head a c hac hcs ihc =>
      intro haI
      rcases hac with ⟨ed, hed, ⟨h1, h2⟩ | ⟨h1, h2⟩⟩
      · subst h1
        subst h2
        have hmc := ihc ((hends ed hed).2)
        exact hclosed ed.tgt hmc _
          (undirectedAdj_symm _ _ _ ⟨ed, hed, Or.inl ⟨rfl, rfl⟩⟩) haI
      · subst h1
        subst h2
        have hmc := ihc ((hends ed hed).1)
        exact hclosed ed.src hmc _
          (undirectedAdj_symm _ _ _ ⟨ed, hed, Or.inr ⟨rfl, rfl⟩⟩) haI
  intro v
  constructor
  · intro hv
    rcases hMs' v hv with h | h
    · exact Or.inl h
    · refine Or.inr ⟨?_, h⟩
      by_contra hvnot
      exact not_marked_of_not_mem g' v (by rw [hI']; exact hvnot) hv
  · intro hv
    rcases hv with h | ⟨hvI, hvR⟩
    · exact hMm' v h
    · exact key v hvR hvI

/-- The counting invariant of the outer loop of
`count_connected_components`: with `V` the starting vertices of the
explorations so far, the marks are the union of the classes of `V`, the
running count is the number of distinct classes of `V`, and (provided no
exploration is cut short) the final count is the number of distinct
classes of `V` together with the remaining order. -/
theorem cccFold_count (E : List EdgeEntry) (I : List ℕ)
    (hends : ∀ ed ∈ E, ed.src ∈ I ∧ ed.tgt ∈ I) :
    ∀ (order : List ℕ) (c : ℕ) (h : SkeletalGraph) (b : Bool) (V : List ℕ),
      (∀ x ∈ order, x ∈ I) →
      h.edges = E → h.ids = I →
      (∀ u, marked h u ↔ (u ∈ I ∧ ∃ v ∈ V, undirectedReach E u v)) →
      c = Set.ncard { C : Set ℕ | ∃ v ∈ V, C = { u | u ∈ I ∧ undirectedReach E u v } } →
      (order.foldl cccStep (c, h, b)).2.2 = true →
      (order.foldl cccStep (c, h, b)).1
        = Set.ncard { C : Set ℕ | ∃ v, (v ∈ V ∨ v ∈ order) ∧
            C = { u | u ∈ I ∧ undirectedReach E u v } } := by
  intro order
  induction order with
  | nil =>
    intro c h b V hord hE hI hMk hc hfl
    rw [List.foldl_nil]
    rw [hc]
    have hset : { C : Set ℕ | ∃ v ∈ V, C = { u | u ∈ I ∧ undirectedReach E u v } }
        = { C : Set ℕ | ∃ v, (v ∈ V ∨ v ∈ ([] : List ℕ)) ∧
            C = { u | u ∈ I ∧ undirectedReach E u v } } := by
      ext C
      simp only [Set.mem_setOf_eq, List.not_mem_nil, or_false]
    rw [hset]
  | cons v0 rest ih =>
    intro c h b V hord hE hI hMk hc hfl
    rw [List.foldl_cons] at hfl ⊢
    by_cases hm : (h.getV v0).is_in_spanning_tree = true
    · have hstep : cccStep (c, h, b) v0 = (c, h, b) := by
        unfold cccStep
        rw [if_pos hm]
      rw [hstep] at hfl ⊢
      obtain ⟨hv0I, w, hwV, hrw⟩ := (hMk v0).mp hm
      rw [ih c h b V (fun x hx => hord x (List.mem_cons_of_mem _ hx)) hE hI hMk hc hfl]
      have hset : { C : Set ℕ | ∃ v, (v ∈ V ∨ v ∈ rest) ∧
            C = { u | u ∈ I ∧ undirectedReach E u v } }
          = { C : Set ℕ | ∃ v, (v ∈ V ∨ v ∈ v0 :: rest) ∧
            C = { u | u ∈ I ∧ undirectedReach E u v } } := by
        ext C
        simp only [Set.mem_setOf_eq]
        constructor
        · rintro ⟨x, hx, rfl⟩
          rcases hx with hxV | hxrest
          · exact ⟨x, Or.inl hxV, rfl⟩
          · exact ⟨x, Or.inr (List.mem_cons_of_mem _ hxrest), rfl⟩
        · rintro ⟨x, hx, rfl⟩
          rcases hx with hxV | hxcons
          · exact ⟨x, Or.inl hxV, rfl⟩
          · rcases List.mem_cons.mp hxcons with rfl | hxrest
            · refine ⟨w, Or.inl hwV, ?_⟩
              ext u
              simp only [Set.mem_setOf_eq]
              constructor
              · rintro ⟨huI, hur⟩
                exact ⟨huI, Relation.ReflTransGen.trans hur hrw⟩
              · rintro ⟨huI, hur⟩
                exact ⟨huI,
                  Relation.ReflTransGen.trans hur (undirectedReach_symm E _ _ hrw)⟩
            · exact ⟨x, Or.inr hxrest, rfl⟩
      rw [hset]
    · have hv0I : v0 ∈ I := hord v0 (List.mem_cons_self _ _)
      have hstep : cccStep (c, h, b) v0
          = (c + 1, (h.explore_from_vertex v0).1,
             b && (h.explore_from_vertex v0).2.isEmpty) := by
        unfold cccStep
        rw [if_neg hm]
      rw [hstep] at hfl ⊢
      have hdr : (h.explore_from_vertex v0).2.isEmpty = true := by
        by_contra hcon
        have hb : (b && (h.explore_from_vertex v0).2.isEmpty) = false := by
          cases hx : (h.explore_from_vertex v0).2.isEmpty
          · rw [Bool.and_false]
          · exact absurd hx hcon
        have hmono := cccFold_flag_mono rest
          (c + 1, (h.explore_from_vertex v0).1,
            b && (h.explore_from_vertex v0).2.isEmpty) hb
        rw [hfl] at hmono
        exact Bool.noConfusion hmono
      have hdr' : (h.explore_from_vertex v0).2 = [] := by
        simpa using hdr
      have hcl : ∀ u, marked h u → ∀ w, undirectedAdj h.edges u w → w ∈ h.ids →
          marked h w := by
        intro u hu w hadj hwI
        obtain ⟨huI, x, hxV, hux⟩ := (hMk u).mp hu
        rw [hE] at hadj
        refine (hMk w).mpr ⟨by rw [← hI]; exact hwI, x, hxV, ?_⟩
        exact Relation.ReflTransGen.head (undirectedAdj_symm E _ _ hadj) hux
      obtain ⟨hE2, hI2, hMk2⟩ := explore_from_vertex_drained h v0
        (by rw [hE, hI]; exact hends)
        hcl (by rw [hI]; exact hv0I) hdr'
      have hMk' : ∀ u, marked (h.explore_from_vertex v0).1 u ↔
          (u ∈ I ∧ ∃ x ∈ v0 :: V, undirectedReach E u x) := by
        intro u
        have hMk2u := hMk2 u
        rw [hE, hI] at hMk2u
        rw [hMk2u]
        constructor
        · rintro (hu | ⟨huI, hur⟩)
          · obtain ⟨huI, x, hxV, hux⟩ := (hMk u).mp hu
            exact ⟨huI, x, List.mem_cons_of_mem _ hxV, hux⟩
          · exact ⟨huI, v0, List.mem_cons_self _ _, hur⟩
        · rintro ⟨huI, x, hxcons, hux⟩
          rcases List.mem_cons.mp hxcons with rfl | hxV
          · exact Or.inr ⟨huI, hux⟩
          · exact Or.inl ((hMk u).mpr ⟨huI, x, hxV, hux⟩)
      have hnew : ({ u | u ∈ I ∧ undirectedReach E u v0 } : Set ℕ)
          ∉ { C : Set ℕ | ∃ x ∈ V, C = { u | u ∈ I ∧ undirectedReach E u x } } := by
        rintro ⟨x, hxV, hcx⟩
        have hv0mem : v0 ∈ ({ u | u ∈ I ∧ undirectedReach E u v0 } : Set ℕ) :=
          ⟨hv0I, Relation.ReflTransGen.refl⟩
        rw [hcx] at hv0mem
        exact hm ((hMk v0).mpr ⟨hv0I, x, hxV, hv0mem.2⟩)
      have hfin : { C : Set ℕ | ∃ x ∈ V,
          C = { u | u ∈ I ∧ undirectedReach E u x } }.Finite := by
        have himg : { C : Set ℕ | ∃ x ∈ V, C = { u | u ∈ I ∧ undirectedReach E u x } }
            = (fun x => { u | u ∈ I ∧ undirectedReach E u x }) '' { x | x ∈ V } := by
          ext C
          simp only [Set.mem_setOf_eq, Set.mem_image]
          constructor
          · rintro ⟨x, hx, rfl⟩
            exact ⟨x, hx, rfl⟩
          · rintro ⟨x, hx, rfl⟩
            exact ⟨x, hx, rfl⟩
        rw [himg]
        exact (List.finite_toSet V).image _
      have hcount : c + 1 = Set.ncard { C : Set ℕ | ∃ x ∈ v0 :: V,
          C = { u | u ∈ I ∧ undirectedReach E u x } } := by
        have hins : { C : Set ℕ | ∃ x ∈ v0 :: V,
              C = { u | u ∈ I ∧ undirectedReach E u x } }
            = insert ({ u | u ∈ I ∧ undirectedReach E u v0 } : Set ℕ)
                { C : Set ℕ | ∃ x ∈ V, C = { u | u ∈ I ∧ undirectedReach E u x } } := by
          ext C
          simp only [Set.mem_setOf_eq, Set.mem_insert_iff, List.mem_cons]
          constructor
          · rintro ⟨x, rfl | hxV, rfl⟩
            · exact Or.inl rfl
            · exact Or.inr ⟨x, hxV, rfl⟩
          · rintro (rfl | ⟨x, hxV, rfl⟩)
            · exact ⟨v0, Or.inl rfl, rfl⟩
            · exact ⟨x, Or.inr hxV, rfl⟩
        rw [hins, Set.ncard_insert_of_not_mem hnew hfin, hc]
      rw [ih (c + 1) (h.explore_from_vertex v0).1
        (b && (h.explore_from_vertex v0).2.isEmpty) (v0 :: V)
        (fun x hx => hord x (List.mem_cons_of_mem _ hx))
        (by rw [hE2]; exact hE) (by rw [hI2]; exact hI)
        hMk' hcount hfl]
      have hset : { C : Set ℕ | ∃ v, (v ∈ v0 :: V ∨ v ∈ rest) ∧
            C = { u | u ∈ I ∧ undirectedReach E u v } }
          = { C : Set ℕ | ∃ v, (v ∈ V ∨ v ∈ v0 :: rest) ∧
            C = { u | u ∈ I ∧ undirectedReach E u v } } := by
        ext C
        simp only [Set.mem_setOf_eq, List.mem_cons]
        constructor
        · rintro ⟨x, hx, rfl⟩
          exact ⟨x, by tauto, rfl⟩
        · rintro ⟨x, hx, rfl⟩
          exact ⟨x, by tauto, rfl⟩
      rw [hset]

/-- C9 (amended): `count_connected_components` returns 0 on the empty
graph, and it returns the number of equivalence classes of the vertices
under the undirected reachability relation PROVIDED no exploration is cut
short by the `vertex_count() * 2` iteration cap (`ccc_drained`) and the
spanning-tree marks start clear; on multigraphs with enough parallel
edges the cap truncates an exploration and the count overshoots. -/
theorem claim_C9_ccc_counts_classes (g : SkeletalGraph)
    (hWF : WF g)
    (hclean : ∀ v ∈ g.ids, (g.getV v).is_in_spanning_tree = false)
    (hdr : SkeletalGraph.ccc_drained g = true) :
    (g.count_connected_components).1
      = Set.ncard { C : Set ℕ | ∃ v ∈ g.ids,
          C = { u | u ∈ g.ids ∧ undirectedReach g.edges u v } } := by
  unfold SkeletalGraph.count_connected_components
  by_cases h0 : g.vertex_count = 0
  · rw [if_pos h0]
    have hids : g.ids = [] := by
      have hv : g.vertices = [] := List.length_eq_zero.mp h0
      unfold SkeletalGraph.ids
      rw [hv]
      rfl
    dsimp only
    rw [hids]
    have hset : { C : Set ℕ | ∃ v ∈ ([] : List ℕ),
        C = { u | u ∈ ([] : List ℕ) ∧ undirectedReach g.edges u v } } = ∅ := by
      ext C
      simp
    rw [hset, Set.ncard_empty]
  · rw [if_neg h0]
    dsimp only
    have hbne : (g.vertex_count == 0) = false := by
      simpa using h0
    have hflag : (SkeletalGraph.cccLoop g g.ids).2.2 = true := by
      unfold SkeletalGraph.ccc_drained at hdr
      rw [hbne, Bool.false_or] at hdr
      exact hdr
    rw [cccLoop_eq_foldl] at hflag
    rw [cccLoop_eq_foldl]
    have hmk0 : ∀ u, marked g u ↔
        (u ∈ g.ids ∧ ∃ v ∈ ([] : List ℕ), undirectedReach g.edges u v) := by
      intro u
      constructor
      · intro hu
        exfalso
        by_cases huI : u ∈ g.ids
        · unfold marked at hu
          rw [hclean u huI] at hu
          exact Bool.noConfusion hu
        · exact not_marked_of_not_mem g u huI hu
      · rintro ⟨_, v, hv, _⟩
        cases hv
    have hc0 : (0 : ℕ) = Set.ncard { C : Set ℕ | ∃ v ∈ ([] : List ℕ),
        C = { u | u ∈ g.ids ∧ undirectedReach g.edges u v } } := by
      have hset : { C : Set ℕ | ∃ v ∈ ([] : List ℕ),
          C = { u | u ∈ g.ids ∧ undirectedReach g.edges u v } } = ∅ := by
        ext C
        simp
      rw [hset, Set.ncard_empty]
    rw [cccFold_count g.edges g.ids hWF.2.2.2.2 g.ids 0 g true []
      (fun x hx => hx) rfl rfl hmk0 hc0 hflag]
    have hset2 : { C : Set ℕ | ∃ v, (v ∈ ([] : List ℕ) ∨ v ∈ g.ids) ∧
          C = { u | u ∈ g.ids ∧ undirectedReach g.edges u v } }
        = { C : Set ℕ | ∃ v ∈ g.ids,
          C = { u | u ∈ g.ids ∧ undirectedReach g.edges u v } } := by
      ext C
      simp only [Set.mem_setOf_eq, List.not_mem_nil, false_or]
    rw [hset2]

/-- Three vertices forming one undirected component: four parallel edges
`0 → 1` and one edge `1 → 2`. -/
def C9graph : SkeletalGraph :=
  { nextVertexId := 3, nextEdgeId := 5,
    vertices := [(0, {}), (1, {}), (2, {})],
    edges := [⟨0, 0, 1, {}⟩, ⟨1, 0, 1, {}⟩, ⟨2, 0, 1, {}⟩, ⟨3, 0, 1, {}⟩, ⟨4, 1, 2, {}⟩],
    edge_spline_count := 10 }

/-- C9 counterexample: with parallel edges the `vertex_count() * 2`
iteration cap (6 here) cuts the first exploration short — the queue grows
once per incident edge while the cap only counts pops — so vertex 2 is
never reached, a second exploration starts there, and the function
returns 2 although the undirected reachability relation has a single
equivalence class. -/
theorem claim_C9_counterexample :
    (C9graph.count_connected_components).1 = 2 ∧
      Set.ncard { C : Set ℕ | ∃ v ∈ C9graph.ids,
        C = { u | u ∈ C9graph.ids ∧ undirectedReach C9graph.edges u v } } = 1 := by
  constructor
  · rfl
  · have hadj10 : undirectedAdj C9graph.edges 1 0 :=
      ⟨⟨0, 0, 1, {}⟩, List.mem_cons_self _ _, Or.inr ⟨rfl, rfl⟩⟩
    have hadj21 : undirectedAdj C9graph.edges 2 1 :=
      ⟨⟨4, 1, 2, {}⟩,
        List.mem_cons_of_mem _ (List.mem_cons_of_mem _ (List.mem_cons_of_mem _
          (List.mem_cons_of_mem _ (List.mem_cons_self _ _)))),
        Or.inr ⟨rfl, rfl⟩⟩
    have hr10 : undirectedReach C9graph.edges 1 0 := Relation.ReflTransGen.single hadj10
    have hr20 : undirectedReach C9graph.edges 2 0 :=
      Relation.ReflTransGen.head hadj21 hr10
    have hr00 : undirectedReach C9graph.edges 0 0 := Relation.ReflTransGen.refl
    have hclass : ∀ v, undirectedReach C9graph.edges v 0 →
        { u | u ∈ C9graph.ids ∧ undirectedReach C9graph.edges u v }
          = { u | u ∈ C9graph.ids ∧ undirectedReach C9graph.edges u 0 } := by
      intro v hv
      ext u
      simp only [Set.mem_setOf_eq]
      constructor
      · rintro ⟨huI, hur⟩
        exact ⟨huI, Relation.ReflTransGen.trans hur hv⟩
      · rintro ⟨huI, hur⟩
        exact ⟨huI, Relation.ReflTransGen.trans hur (undirectedReach_symm _ _ _ hv)⟩
    have hids : C9graph.ids = [0, 1, 2] := rfl
    have hset : { C : Set ℕ | ∃ v ∈ C9graph.ids,
        C = { u | u ∈ C9graph.ids ∧ undirectedReach C9graph.edges u v } }
        = {({ u | u ∈ C9graph.ids ∧ undirectedReach C9graph.edges u 0 } : Set ℕ)} := by
      ext C
      simp only [Set.mem_setOf_eq, Set.mem_singleton_iff]
      constructor
      · rintro ⟨v, hvI, rfl⟩
        rw [hids] at hvI
        have hv3 : v = 0 ∨ v = 1 ∨ v = 2 := by
          simpa using hvI
        have hv0 : undirectedReach C9graph.edges v 0 := by
          rcases hv3 with rfl | rfl | rfl
          · exact hr00
          · exact hr10
          · exact hr20
        exact hclass v hv0
      · rintro rfl
        exact ⟨0, by rw [hids]; exact List.mem_cons_self _ _, rfl⟩
    rw [hset, Set.ncard_singleton]

/-- Two vertices joined by one edge plus one isolated vertex: two
undirected components, and every exploration drains its queue. -/
def C9wgraph : SkeletalGraph :=
  { nextVertexId := 3, nextEdgeId := 1,
    vertices := [(0, {}), (1, {}), (2, {})],
    edges := [⟨0, 0, 1, {}⟩],
    edge_spline_count := 2 }

theorem claim_C9_witness :
    WF C9wgraph ∧ (∀ v ∈ C9wgraph.ids, (C9wgraph.getV v).is_in_spanning_tree = false) ∧
      SkeletalGraph.ccc_drained C9wgraph = true ∧
      (C9wgraph.count_connected_components).1
        = Set.ncard { C : Set ℕ | ∃ v ∈ C9wgraph.ids,
            C = { u | u ∈ C9wgraph.ids ∧ undirectedReach C9wgraph.edges u v } } :=
  ⟨by decide, by decide, by decide,
   claim_C9_ccc_counts_classes C9wgraph (by decide) (by decide) (by decide)⟩

instance : Inhabited EdgeEntry := ⟨⟨0, 0, 0, {}⟩⟩

/-- The vertex properties rebuilt by importing one exported vertex
block: position, radius and cycle flag survive the text format, the
transient fields reset to their defaults. -/
def mirrorV (p : VertexProperties) : VertexProperties :=
  { position := p.position, radius := p.radius, is_part_of_cycle := p.is_part_of_cycle }

theorem findIdx_find {α : Type} (d : α) (p : α → Bool) :
    ∀ (l : List α) (i : ℕ), l.findIdx? p = some i →
      i < l.length ∧ l.find? p = some (l.getD i d) ∧ p (l.getD i d) = true := by
  intro l
  induction l with
  | nil => intro i h; cases h
  | cons a t ih =>
    intro i h
    rw [List.findIdx?_cons] at h
    by_cases hp : p a = true
    · rw [if_pos hp] at h
      injection h with h'
      subst h'
      refine ⟨by simp, ?_, hp⟩
      rw [List.find?_cons_of_pos _ hp]
      rfl
    · rw [if_neg hp] at h
      rw [List.findIdx?_succ] at h
      rcases Option.map_eq_some'.mp h with ⟨j, hj, rfl⟩
      obtain ⟨hlt, hfind, hpj⟩ := ih j hj
      refine ⟨?_, ?_, hpj⟩
      · rw [List.length_cons]
        omega
      · rw [List.find?_cons_of_neg _ hp]
        exact hfind

theorem range_shift_map {α : Type} (f : ℕ → α) (n : ℕ) :
    f 0 :: (List.range n).map (fun i => f (i + 1)) = (List.range (n + 1)).map f := by
  rw [List.range_succ_eq_map, List.map_cons, List.map_map]
  rfl

theorem getD_map_range {α : Type} (d : α) :
    ∀ (n : ℕ) (f : ℕ → α) (k : ℕ), k < n → ((List.range n).map f).getD k d = f k := by
  intro n
  induction n with
  | zero => intro f k h; omega
  | succ n ih =>
    intro f k h
    rw [List.range_succ_eq_map, List.map_cons, List.map_map]
    cases k with
    | zero => rfl
    | succ q =>
      have hq := ih (fun i => f (i + 1)) q (by omega)
      show ((List.range n).map (f ∘ Nat.succ)).getD q d = f (q + 1)
      exact hq

theorem getD_map {α β : Type} (d : β) (d' : α) (f : α → β) :
    ∀ (l : List α) (k : ℕ), k < l.length → (l.map f).getD k d = f (l.getD k d') := by
  intro l
  induction l with
  | nil =>
    intro k h
    simp at h
  | cons a t ih =>
    intro k h
    cases k with
    | zero => rfl
    | succ q =>
      refine ih q ?_
      rw [List.length_cons] at h
      omega

/-- Modelled from the spec: a curve built from at least two discrete
points keeps the point positions verbatim (only the tangents are
recomputed). -/
theorem curveFromDiscrete_spec (pts : List Vec3) (h2 : 2 ≤ pts.length) :
    ∃ c, curveFromDiscrete pts = some c ∧ c.map (fun pt => pt.1) = pts := by
  refine ⟨_, by unfold curveFromDiscrete; rw [if_pos h2], ?_⟩
  rw [List.map_map]
  have hpt : ∀ k ∈ List.range pts.length,
      ((fun pt : PointTangent => pt.1) ∘ (fun k =>
        ((pts.getD k (0,0,0),
          if k + 1 < pts.length then
            normalize (vsub (pts.getD (k+1) (0,0,0)) (pts.getD k (0,0,0)))
          else
            normalize (vsub (pts.getD k (0,0,0)) (pts.getD (k-1) (0,0,0)))) :
              PointTangent))) k
        = pts.getD k (0,0,0) := fun k _ => rfl
  rw [List.map_congr_left hpt]
  clear hpt h2
  induction pts with
  | nil => rfl
  | cons a t ih =>
    rw [List.length_cons, List.range_succ_eq_map, List.map_cons, List.map_map]
    show (a :: (List.range t.length).map (fun k => t.getD k (0,0,0))) = a :: t
    rw [ih]

theorem importStep_vertexBlock (g : SkeletalGraph) (sc : ℚ) (vs : List ℕ)
    (vp : VertexProperties) (p : VertexProperties) :
    (exportVertexLines p).foldl importStep
        { g := g, scale := sc, verts := vs, reading_vertices := true, v_props := vp }
      = { g := (g.add_vertex (mirrorV p)).2, scale := sc,
          verts := vs ++ [g.nextVertexId], reading_vertices := true,
          v_props := mirrorV p } := by
  obtain ⟨pos, rad, cyc, f1, f2, f3, f4⟩ := p
  cases cyc <;> rfl

theorem importVerticesList (sc : ℚ) :
    ∀ (ps : List VertexProperties) (g : SkeletalGraph) (vs : List ℕ)
      (vp : VertexProperties),
      ∃ vp',
        ((ps.map exportVertexLines).flatten).foldl importStep
            { g := g, scale := sc, verts := vs, reading_vertices := true, v_props := vp }
          = { g := { g with
                 nextVertexId := g.nextVertexId + ps.length,
                 vertices := g.vertices ++ (List.range ps.length).map (fun i =>
                   (g.nextVertexId + i, mirrorV (ps.getD i default))) },
              scale := sc,
              verts := vs ++ (List.range ps.length).map (fun i => g.nextVertexId + i),
              reading_vertices := true,
              v_props := vp' } := by
  intro ps
  induction ps with
  | nil =>
    intro g vs vp
    refine ⟨vp, ?_⟩
    rw [List.map_nil, List.flatten_nil, List.foldl_nil]
    simp only [List.length_nil, List.range_zero, List.map_nil, List.append_nil]
    rfl
  | cons p tl ih =>
    intro g vs vp
    rw [List.map_cons, List.flatten_cons, List.foldl_append, importStep_vertexBlock]
    obtain ⟨vp', hih⟩ := ih (g.add_vertex (mirrorV p)).2 (vs ++ [g.nextVertexId]) (mirrorV p)
    rw [hih]
    refine ⟨vp', ?_⟩
    have hvertices :
        (g.add_vertex (mirrorV p)).2.vertices
          ++ (List.range tl.length).map (fun i =>
              ((g.add_vertex (mirrorV p)).2.nextVertexId + i, mirrorV (tl.getD i default)))
        = g.vertices ++ (List.range (p :: tl).length).map (fun i =>
            (g.nextVertexId + i, mirrorV ((p :: tl).getD i default))) := by
      show (g.vertices ++ [(g.nextVertexId, mirrorV p)])
          ++ (List.range tl.length).map (fun i =>
              (g.nextVertexId + 1 + i, mirrorV (tl.getD i default)))
        = _
      rw [List.append_assoc, List.singleton_append, List.length_cons]
      congr 1
      rw [← range_shift_map (fun i =>
        (g.nextVertexId + i, mirrorV ((p :: tl).getD i default))) tl.length]
      congr 1
      apply List.map_congr_left
      intro i _
      have harith : g.nextVertexId + 1 + i = g.nextVertexId + (i + 1) := by omega
      rw [harith, List.getD_cons_succ]
    have hverts :
        (vs ++ [g.nextVertexId]) ++ (List.range tl.length).map (fun i =>
            (g.add_vertex (mirrorV p)).2.nextVertexId + i)
        = vs ++ (List.range (p :: tl).length).map (fun i => g.nextVertexId + i) := by
      show (vs ++ [g.nextVertexId]) ++ (List.range tl.length).map (fun i =>
            g.nextVertexId + 1 + i) = _
      rw [List.append_assoc, List.singleton_append, List.length_cons]
      congr 1
      rw [← range_shift_map (fun i => g.nextVertexId + i) tl.length]
      show (g.nextVertexId + 0) :: _ = g.nextVertexId :: _
      congr 1
      apply List.map_congr_left
      intro i _
      omega
    have hnv : (g.add_vertex (mirrorV p)).2.nextVertexId + tl.length
        = g.nextVertexId + (p :: tl).length := by
      show g.nextVertexId + 1 + tl.length = _
      rw [List.length_cons]
      omega
    congr 1
    rw [hnv, hvertices]
    rfl

theorem importCurvePoints (h : SkeletalGraph) (sc : ℚ) (vs : List ℕ)
    (vp : VertexProperties) (ep : EdgeProperties) (a b : ℕ) :
    ∀ (pts : List Vec3) (acc : List Vec3),
      (pts.map (fun p => FileLine.curvePointLine (some p))).foldl importStep
          { g := h, scale := sc, verts := vs, reading_edges := true, reading_edge := true,
            reading_curve := true, v_props := vp, e_props := ep,
            e_source_index := a, e_target_index := b, e_curve := acc }
        = { g := h, scale := sc, verts := vs, reading_edges := true, reading_edge := true,
            reading_curve := true, v_props := vp, e_props := ep,
            e_source_index := a, e_target_index := b, e_curve := acc ++ pts } := by
  intro pts
  induction pts with
  | nil =>
    intro acc
    rw [List.map_nil, List.foldl_nil, List.append_nil]
  | cons p tlp ih =>
    intro acc
    rw [List.map_cons, List.foldl_cons]
    have hstep : importStep
        { g := h, scale := sc, verts := vs, reading_edges := true, reading_edge := true,
          reading_curve := true, v_props := vp, e_props := ep,
          e_source_index := a, e_target_index := b, e_curve := acc }
        (FileLine.curvePointLine (some p))
        = { g := h, scale := sc, verts := vs, reading_edges := true, reading_edge := true,
            reading_curve := true, v_props := vp, e_props := ep,
            e_source_index := a, e_target_index := b, e_curve := acc ++ [p] } := rfl
    rw [hstep, ih, List.append_assoc, List.singleton_append]

theorem importEdgeBlock (h : SkeletalGraph) (sc : ℚ) (vs : List ℕ) (vp : VertexProperties)
    (ep0 : EdgeProperties) (a0 b0 : ℕ) (cv0 : List Vec3)
    (si ti cflag : ℕ) (pts : List Vec3) (c : Curve)
    (hc : curveFromDiscrete pts = some c)
    (hsi : si < vs.length) (hti : ti < vs.length) :
    (([FileLine.edgeOpen, FileLine.sourceLine (some si), FileLine.targetLine (some ti),
        FileLine.cycleLine (some cflag), FileLine.curveOpen]
      ++ pts.map (fun p => FileLine.curvePointLine (some p))
      ++ [FileLine.curveClose, FileLine.edgeClose]).foldl importStep
        { g := h, scale := sc, verts := vs, reading_edges := true,
          v_props := vp, e_props := ep0, e_source_index := a0, e_target_index := b0,
          e_curve := cv0 })
      = { g := (h.add_edge (some (vs.getD si 0)) (some (vs.getD ti 0))
                 { curve := c, is_part_of_cycle := cflag != 0 }).2,
          scale := sc, verts := vs, reading_edges := true,
          v_props := vp, e_props := { curve := c, is_part_of_cycle := cflag != 0 },
          e_source_index := si, e_target_index := ti, e_curve := pts } := by
  rw [List.foldl_append, List.foldl_append]
  rw [show ([FileLine.edgeOpen, FileLine.sourceLine (some si), FileLine.targetLine (some ti),
        FileLine.cycleLine (some cflag), FileLine.curveOpen] : List FileLine).foldl importStep
        { g := h, scale := sc, verts := vs, reading_edges := true,
          v_props := vp, e_props := ep0, e_source_index := a0, e_target_index := b0,
          e_curve := cv0 }
      = { g := h, scale := sc, verts := vs, reading_edges := true, reading_edge := true,
          reading_curve := true, v_props := vp,
          e_props := { curve := defaultCurve, is_part_of_cycle := cflag != 0 },
          e_source_index := si, e_target_index := ti, e_curve := [] } from rfl]
  rw [importCurvePoints]
  rw [List.nil_append]
  rw [List.foldl_cons]
  have h7 : importStep
      { g := h, scale := sc, verts := vs, reading_edges := true, reading_edge := true,
        reading_curve := true, v_props := vp,
        e_props := { curve := defaultCurve, is_part_of_cycle := cflag != 0 },
        e_source_index := si, e_target_index := ti, e_curve := pts }
      FileLine.curveClose
      = { g := h, scale := sc, verts := vs, reading_edges := true, reading_edge := true,
          v_props := vp, e_props := { curve := c, is_part_of_cycle := cflag != 0 },
          e_source_index := si, e_target_index := ti, e_curve := pts } := by
    unfold importStep
    dsimp only
    rw [hc]
    rfl
  rw [h7, List.foldl_cons, List.foldl_nil]
  have h8 : importStep
      { g := h, scale := sc, verts := vs, reading_edges := true, reading_edge := true,
        v_props := vp, e_props := { curve := c, is_part_of_cycle := cflag != 0 },
        e_source_index := si, e_target_index := ti, e_curve := pts }
      FileLine.edgeClose
      = { g := (h.add_edge (some (vs.getD si 0)) (some (vs.getD ti 0))
                 { curve := c, is_part_of_cycle := cflag != 0 }).2,
          scale := sc, verts := vs, reading_edges := true,
          v_props := vp, e_props := { curve := c, is_part_of_cycle := cflag != 0 },
          e_source_index := si, e_target_index := ti, e_curve := pts } := by
    unfold importStep
    dsimp only
    rw [if_pos (⟨hsi, hti⟩ : si < vs.length ∧ ti < vs.length)]
    rfl
  rw [h8]

theorem exportEdgeLines_eq (g : SkeletalGraph) (ed : EdgeEntry) (b : List FileLine)
    (hb : exportEdgeLines g ed = some b) :
    ∃ si ti, vidIndex g ed.src = some si ∧ vidIndex g ed.tgt = some ti ∧
      b = [FileLine.edgeOpen, FileLine.sourceLine (some si), FileLine.targetLine (some ti),
           FileLine.cycleLine (some (if ed.prop.is_part_of_cycle then 1 else 0)),
           FileLine.curveOpen]
          ++ ed.prop.curve.map (fun pt => FileLine.curvePointLine (some pt.1))
          ++ [FileLine.curveClose, FileLine.edgeClose] := by
  unfold exportEdgeLines at hb
  rcases hs : vidIndex g ed.src with _ | si <;> rcases ht : vidIndex g ed.tgt with _ | ti <;>
    rw [hs, ht] at hb
  · cases hb
  · cases hb
  · cases hb
  · refine ⟨si, ti, rfl, rfl, ?_⟩
    injection hb with hb'
    exact hb'.symm

theorem importEdgesList (g : SkeletalGraph) (sc : ℚ) (vs : List ℕ)
    (hlen : g.vertices.length ≤ vs.length) :
    ∀ (eds : List EdgeEntry) (ebs : List (List FileLine)),
      eds.mapM (exportEdgeLines g) = some ebs →
      (∀ ed ∈ eds, 2 ≤ ed.prop.curve.length) →
      ∀ (h : SkeletalGraph) (vp : VertexProperties) (ep0 : EdgeProperties)
        (a0 b0 : ℕ) (cv0 : List Vec3),
      ∃ ep' a' b' cv',
        ebs.flatten.foldl importStep
            { g := h, scale := sc, verts := vs, reading_edges := true,
              v_props := vp, e_props := ep0, e_source_index := a0,
              e_target_index := b0, e_curve := cv0 }
          = { g := eds.foldl (fun h' ed =>
                (h'.add_edge (some (vs.getD ((vidIndex g ed.src).getD 0) 0))
                    (some (vs.getD ((vidIndex g ed.tgt).getD 0) 0))
                    { curve := (curveFromDiscrete
                        (ed.prop.curve.map (fun pt => pt.1))).getD defaultCurve,
                      is_part_of_cycle :=
                        (if ed.prop.is_part_of_cycle then (1 : ℕ) else 0) != 0 }).2) h,
              scale := sc, verts := vs, reading_edges := true,
              v_props := vp, e_props := ep', e_source_index := a',
              e_target_index := b', e_curve := cv' } := by
  intro eds
  induction eds with
  | nil =>
    intro ebs hmap hcur h vp ep0 a0 b0 cv0
    have hebs : ebs = [] := by
      rw [List.mapM_nil] at hmap
      injection hmap with h'
      exact h'.symm
    subst hebs
    exact ⟨ep0, a0, b0, cv0, by rw [List.flatten_nil, List.foldl_nil, List.foldl_nil]⟩
  | cons ed tl ih =>
    intro ebs hmap hcur h vp ep0 a0 b0 cv0
    rw [List.mapM_cons] at hmap
    rcases Option.bind_eq_some.mp hmap with ⟨b, hb, hrest⟩
    rcases Option.bind_eq_some.mp hrest with ⟨tbs, htbs, hpure⟩
    have hebs : ebs = b :: tbs := by
      injection hpure with h'
      exact h'.symm
    subst hebs
    obtain ⟨si, ti, hs, ht, hbshape⟩ := exportEdgeLines_eq g ed b hb
    obtain ⟨c, hc, hcpos⟩ := curveFromDiscrete_spec (ed.prop.curve.map (fun pt => pt.1))
      (by rw [List.length_map]; exact hcur ed (List.mem_cons_self _ _))
    have hsib : si < vs.length := by
      have := (findIdx_find ((0 : ℕ), (default : VertexProperties))
        (fun pr => pr.1 == ed.src) g.vertices si hs).1
      omega
    have htib : ti < vs.length := by
      have := (findIdx_find ((0 : ℕ), (default : VertexProperties))
        (fun pr => pr.1 == ed.tgt) g.vertices ti ht).1
      omega
    rw [List.flatten_cons, List.foldl_append, hbshape,
      show List.map (fun pt : PointTangent => FileLine.curvePointLine (some pt.1))
          ed.prop.curve
        = List.map (fun p => FileLine.curvePointLine (some p))
            (List.map (fun pt : PointTangent => pt.1) ed.prop.curve) from by
        rw [List.map_map]
        rfl,
      importEdgeBlock h sc vs vp ep0 a0 b0 cv0 si ti
        (if ed.prop.is_part_of_cycle then (1 : ℕ) else 0)
        (ed.prop.curve.map (fun pt => pt.1)) c hc hsib htib]
    obtain ⟨ep', a', b', cv', hih⟩ := ih tbs htbs
      (fun e he => hcur e (List.mem_cons_of_mem _ he))
      (h.add_edge (some (vs.getD si 0)) (some (vs.getD ti 0))
        { curve := c,
          is_part_of_cycle := (if ed.prop.is_part_of_cycle then (1 : ℕ) else 0) != 0 }).2
      vp { curve := c,
           is_part_of_cycle := (if ed.prop.is_part_of_cycle then (1 : ℕ) else 0) != 0 }
      si ti (ed.prop.curve.map (fun pt => pt.1))
    rw [hih]
    refine ⟨ep', a', b', cv', ?_⟩
    rw [List.foldl_cons]
    have hF : (h.add_edge (some (vs.getD ((vidIndex g ed.src).getD 0) 0))
          (some (vs.getD ((vidIndex g ed.tgt).getD 0) 0))
          { curve := (curveFromDiscrete (ed.prop.curve.map (fun pt => pt.1))).getD defaultCurve,
            is_part_of_cycle :=
              (if ed.prop.is_part_of_cycle then (1 : ℕ) else 0) != 0 }).2
        = (h.add_edge (some (vs.getD si 0)) (some (vs.getD ti 0))
            { curve := c,
              is_part_of_cycle :=
                (if ed.prop.is_part_of_cycle then (1 : ℕ) else 0) != 0 }).2 := by
      rw [hs, ht, hc]
      rfl
    rw [hF]

theorem addEdgeFold_spec (g1 : SkeletalGraph) (S T : EdgeEntry → ℕ)
    (P : EdgeEntry → EdgeProperties) :
    ∀ (eds : List EdgeEntry) (h : SkeletalGraph), h.vertices = g1.vertices →
      ((eds.foldl (fun h' ed =>
          (h'.add_edge (some (S ed)) (some (T ed)) (P ed)).2) h).vertices = g1.vertices ∧
       (eds.foldl (fun h' ed =>
          (h'.add_edge (some (S ed)) (some (T ed)) (P ed)).2) h).edges
         = h.edges ++ (List.range eds.length).map (fun i =>
             ⟨h.nextEdgeId + i, S (eds.getD i default), T (eds.getD i default),
              { P (eds.getD i default) with is_part_of_cycle :=
                  (g1.getV (S (eds.getD i default))).is_part_of_cycle &&
                  (g1.getV (T (eds.getD i default))).is_part_of_cycle }⟩)) := by
  intro eds
  induction eds with
  | nil =>
    intro h hv
    refine ⟨hv, ?_⟩
    rw [List.foldl_nil]
    simp only [List.length_nil, List.range_zero, List.map_nil, List.append_nil]
  | cons ed tl ih =>
    intro h hv
    rw [List.foldl_cons]
    have hgetvS : ({ h with
        edge_spline_count := h.edge_spline_count + (P ed).curve.length }).getV (S ed)
        = g1.getV (S ed) := by
      unfold SkeletalGraph.getV
      dsimp only
      rw [hv]
    have hgetvT : ({ h with
        edge_spline_count := h.edge_spline_count + (P ed).curve.length }).getV (T ed)
        = g1.getV (T ed) := by
      unfold SkeletalGraph.getV
      dsimp only
      rw [hv]
    obtain ⟨ihv, ihe⟩ := ih (h.add_edge (some (S ed)) (some (T ed)) (P ed)).2
      (show h.vertices = g1.vertices from hv)
    refine ⟨ihv, ?_⟩
    have hstep_edges : (h.add_edge (some (S ed)) (some (T ed)) (P ed)).2.edges
        = h.edges ++ [⟨h.nextEdgeId, S ed, T ed,
            { P ed with is_part_of_cycle :=
                (g1.getV (S ed)).is_part_of_cycle
                && (g1.getV (T ed)).is_part_of_cycle }⟩] := by
      show h.edges ++ [⟨h.nextEdgeId, S ed, T ed,
          { P ed with is_part_of_cycle :=
              (({ h with edge_spline_count :=
                  h.edge_spline_count + (P ed).curve.length } : SkeletalGraph).getV
                (S ed)).is_part_of_cycle
              && (({ h with edge_spline_count :=
                  h.edge_spline_count + (P ed).curve.length } : SkeletalGraph).getV
                (T ed)).is_part_of_cycle }⟩]
        = _
      rw [hgetvS, hgetvT]
    have hstep_nid : (h.add_edge (some (S ed)) (some (T ed)) (P ed)).2.nextEdgeId
        = h.nextEdgeId + 1 := rfl
    rw [ihe, hstep_edges, hstep_nid]
    rw [List.append_assoc, List.singleton_append, List.length_cons]
    congr 1
    rw [← range_shift_map (fun i =>
      (⟨h.nextEdgeId + i, S ((ed :: tl).getD i default), T ((ed :: tl).getD i default),
        { P ((ed :: tl).getD i default) with is_part_of_cycle :=
            (g1.getV (S ((ed :: tl).getD i default))).is_part_of_cycle &&
            (g1.getV (T ((ed :: tl).getD i default))).is_part_of_cycle }⟩ : EdgeEntry))
      tl.length]
    congr 1
    apply List.map_congr_left
    intro i _
    have harith : h.nextEdgeId + 1 + i = h.nextEdgeId + (i + 1) := by omega
    rw [harith, List.getD_cons_succ]

theorem findIdx_isSome {α : Type} (p : α → Bool) :
    ∀ (l : List α), (∃ a ∈ l, p a = true) → ∃ i, l.findIdx? p = some i := by
  intro l
  induction l with
  | nil =>
    rintro ⟨a, ha, _⟩
    cases ha
  | cons x t ih =>
    rintro ⟨a, ha, hpa⟩
    rw [List.findIdx?_cons]
    by_cases hx : p x = true
    · exact ⟨0, by rw [if_pos hx]⟩
    · rcases List.mem_cons.mp ha with rfl | hat
      · exact absurd hpa hx
      · obtain ⟨j, hj⟩ := ih ⟨a, hat, hpa⟩
        refine ⟨j + 1, ?_⟩
        rw [if_neg hx, List.findIdx?_succ, hj]
        rfl

theorem getD_range (n i : ℕ) (h : i < n) : (List.range n).getD i 0 = i := by
  have hm := getD_map_range 0 n (fun j => j) i h
  rw [List.map_id'] at hm
  exact hm

theorem getD_mem {α : Type} : ∀ (l : List α) (k : ℕ) (d : α), k < l.length →
    l.getD k d ∈ l := by
  intro l
  induction l with
  | nil =>
    intro k d h
    simp at h
  | cons a t ih =>
    intro k d h
    cases k with
    | zero => exact List.mem_cons_self _ _
    | succ q =>
      rw [List.length_cons] at h
      exact List.mem_cons_of_mem _ (ih q d (by omega))

/-- C6 (amended): exporting a well-formed graph (with the invariant
curve sizes ≥ 2) and importing the file back into a fresh graph
round-trips the vertex count and order, the vertex positions, radii and
vertex cycle flags, the edge count and endpoint pairing by vertex index,
and the curve sample positions.  The per-edge cycle flag is NOT
round-tripped: the import rebuilds each edge through `add_edge`, which
overwrites the stored flag with the conjunction of the endpoint
vertices' cycle flags (source line 435). -/
theorem claim_C6_export_import_roundtrip (g : SkeletalGraph) (sc : ℚ)
    (lines : List FileLine)
    (hWF : WF g) (hcur : ∀ ed ∈ g.edges, 2 ≤ ed.prop.curve.length)
    (hexp : export_to_lines g sc = some lines) :
    ((import_from_lines lines emptyGraph).g.vertex_count = g.vertex_count ∧
      ∀ k, k < g.vertex_count →
        ((import_from_lines lines emptyGraph).g.vertices.getD k default).1 = k ∧
        ((import_from_lines lines emptyGraph).g.vertices.getD k default).2.position
          = (g.vertices.getD k default).2.position ∧
        ((import_from_lines lines emptyGraph).g.vertices.getD k default).2.radius
          = (g.vertices.getD k default).2.radius ∧
        ((import_from_lines lines emptyGraph).g.vertices.getD k default).2.is_part_of_cycle
          = (g.vertices.getD k default).2.is_part_of_cycle) ∧
    ((import_from_lines lines emptyGraph).g.edge_count = g.edge_count ∧
      ∀ k, k < g.edge_count →
        ∃ si ti,
          vidIndex g (g.edges.getD k default).src = some si ∧
          vidIndex g (g.edges.getD k default).tgt = some ti ∧
          ((import_from_lines lines emptyGraph).g.edges.getD k default).src = si ∧
          ((import_from_lines lines emptyGraph).g.edges.getD k default).tgt = ti ∧
          ((import_from_lines lines emptyGraph).g.edges.getD k default).prop.curve.map
              (fun pt => pt.1)
            = (g.edges.getD k default).prop.curve.map (fun pt => pt.1) ∧
          ((import_from_lines lines emptyGraph).g.edges.getD k default).prop.is_part_of_cycle
            = ((g.getV (g.edges.getD k default).src).is_part_of_cycle
               && (g.getV (g.edges.getD k default).tgt).is_part_of_cycle)) := by
  unfold export_to_lines at hexp
  rcases Option.bind_eq_some.mp hexp with ⟨ebs, hmap, hret⟩
  have hlines : lines = [FileLine.scaleLine (some sc), FileLine.verticesOpen]
      ++ (g.vertices.map (fun pr => exportVertexLines pr.2)).flatten
      ++ [FileLine.verticesClose, FileLine.edgesOpen]
      ++ ebs.flatten ++ [FileLine.edgesClose] := by
    injection hret with h'
    exact h'.symm
  subst hlines
  by_cases hn : g.vertices.length = 0
  · have hvert : g.vertices = [] := List.length_eq_zero.mp hn
    have hedges : g.edges = [] := by
      rw [List.eq_nil_iff_forall_not_mem]
      intro ed hed
      have h2 := (hWF.2.2.2.2 ed hed).1
      unfold SkeletalGraph.ids at h2
      rw [hvert] at h2
      cases h2
    have hebs : ebs = [] := by
      rw [hedges, List.mapM_nil] at hmap
      injection hmap with h'
      exact h'.symm
    subst hebs
    rw [hvert, hedges]
    refine ⟨⟨hn.symm, ?_⟩, (congrArg List.length hedges).symm, ?_⟩
    · intro k hk
      have hk' : k < g.vertices.length := hk
      rw [hn] at hk'
      exact absurd hk' (by omega)
    · intro k hk
      have hk' : k < g.edges.length := hk
      rw [hedges] at hk'
      exact absurd hk' (by simp)
  · obtain ⟨vp', hV⟩ :=
      importVerticesList sc (g.vertices.map (fun pr => pr.2)) emptyGraph [] {}
    have hGV : ({ emptyGraph with
        nextVertexId := emptyGraph.nextVertexId + (g.vertices.map (fun pr => pr.2)).length,
        vertices := emptyGraph.vertices
          ++ (List.range (g.vertices.map (fun pr => pr.2)).length).map (fun i =>
              (emptyGraph.nextVertexId + i,
               mirrorV ((g.vertices.map (fun pr => pr.2)).getD i default))) } : SkeletalGraph)
        = { nextVertexId := g.vertices.length,
            vertices := (List.range g.vertices.length).map (fun i =>
              (i, mirrorV ((g.vertices.map (fun pr => pr.2)).getD i default))) } := by
      rw [List.length_map]
      show ({ nextVertexId := 0 + g.vertices.length, nextEdgeId := 0,
              vertices := (List.range g.vertices.length).map (fun i =>
                (0 + i, mirrorV ((g.vertices.map (fun pr => pr.2)).getD i default))),
              edges := [], edge_spline_count := 0 } : SkeletalGraph) = _
      rw [Nat.zero_add]
      congr 1
      apply List.map_congr_left
      intro i _
      rw [Nat.zero_add]
    have hVT : ([] : List ℕ) ++ (List.range (g.vertices.map (fun pr => pr.2)).length).map
        (fun i => emptyGraph.nextVertexId + i) = List.range g.vertices.length := by
      rw [List.nil_append, List.length_map]
      have hz : ∀ i ∈ List.range g.vertices.length, emptyGraph.nextVertexId + i = i := by
        intro i _
        show 0 + i = i
        omega
      rw [List.map_congr_left hz, List.map_id']
    rw [hGV, hVT] at hV
    set G : SkeletalGraph :=
      { nextVertexId := g.vertices.length,
        vertices := (List.range g.vertices.length).map (fun i =>
          (i, mirrorV ((g.vertices.map (fun pr => pr.2)).getD i default))) } with hGdef
    have hisE : (List.range g.vertices.length).isEmpty = false := by
      obtain ⟨m, hm⟩ : ∃ m, g.vertices.length = m + 1 := ⟨g.vertices.length - 1, by omega⟩
      rw [hm, List.range_succ_eq_map]
      rfl
    have hCD : ([FileLine.verticesClose, FileLine.edgesOpen]).foldl importStep
        { g := G, scale := sc, verts := List.range g.vertices.length,
          reading_vertices := true, v_props := vp' }
        = { g := G, scale := sc, verts := List.range g.vertices.length,
            reading_edges := true, v_props := vp' } := by
      rw [List.foldl_cons, List.foldl_cons, List.foldl_nil]
      rw [show importStep
          { g := G, scale := sc, verts := List.range g.vertices.length,
            reading_vertices := true, v_props := vp' } FileLine.verticesClose
          = { g := G, scale := sc, verts := List.range g.vertices.length,
              v_props := vp' } from rfl]
      rw [show importStep
          { g := G, scale := sc, verts := List.range g.vertices.length, v_props := vp' }
          FileLine.edgesOpen
          = { g := G, scale := sc, verts := List.range g.vertices.length,
              reading_edges := true, v_props := vp',
              halted := (List.range g.vertices.length).isEmpty } from rfl]
      rw [hisE]
    obtain ⟨ep', a', b', cv', hE⟩ := importEdgesList g sc (List.range g.vertices.length)
      (le_of_eq (List.length_range g.vertices.length).symm) g.edges ebs hmap hcur
      G vp' {} 0 0 []
    have hmm2 : g.vertices.map (fun pr => exportVertexLines pr.2)
        = (g.vertices.map (fun pr => pr.2)).map exportVertexLines := by
      rw [List.map_map]
      rfl
    have himpg : (import_from_lines
        ([FileLine.scaleLine (some sc), FileLine.verticesOpen]
          ++ (g.vertices.map (fun pr => exportVertexLines pr.2)).flatten
          ++ [FileLine.verticesClose, FileLine.edgesOpen]
          ++ ebs.flatten ++ [FileLine.edgesClose]) emptyGraph).g
        = g.edges.foldl (fun h' ed =>
            (h'.add_edge
              (some ((List.range g.vertices.length).getD ((vidIndex g ed.src).getD 0) 0))
              (some ((List.range g.vertices.length).getD ((vidIndex g ed.tgt).getD 0) 0))
              { curve := (curveFromDiscrete
                  (ed.prop.curve.map (fun pt => pt.1))).getD defaultCurve,
                is_part_of_cycle :=
                  (if ed.prop.is_part_of_cycle then (1 : ℕ) else 0) != 0 }).2) G := by
      unfold import_from_lines
      rw [List.foldl_append, List.foldl_append, List.foldl_append, List.foldl_append]
      rw [show ([FileLine.scaleLine (some sc), FileLine.verticesOpen]).foldl importStep
          { g := emptyGraph }
          = { g := emptyGraph, scale := sc, verts := [], reading_vertices := true,
              v_props := {} } from rfl]
      rw [hmm2, hV, hCD, hE]
      rfl
    obtain ⟨hfoldv, hfolde⟩ := addEdgeFold_spec G
      (fun ed => (List.range g.vertices.length).getD ((vidIndex g ed.src).getD 0) 0)
      (fun ed => (List.range g.vertices.length).getD ((vidIndex g ed.tgt).getD 0) 0)
      (fun ed =>
        { curve := (curveFromDiscrete (ed.prop.curve.map (fun pt => pt.1))).getD defaultCurve,
          is_part_of_cycle := (if ed.prop.is_part_of_cycle then (1 : ℕ) else 0) != 0 })
      g.edges G rfl
    have hGvert : G.vertices = (List.range g.vertices.length).map
        (fun i => (i, mirrorV ((g.vertices.map (fun pr => pr.2)).getD i default))) := by
      rw [hGdef]
    have hGedges : G.edges = [] := by
      rw [hGdef]
    have hGnid : G.nextEdgeId = 0 := by
      rw [hGdef]
    have hGids : ∀ v, v < g.vertices.length → G.getV v
        = mirrorV ((g.vertices.map (fun pr => pr.2)).getD v default) := by
      intro v hv
      have hmem : (v, mirrorV ((g.vertices.map (fun pr => pr.2)).getD v default))
          ∈ G.vertices := by
        rw [hGvert]
        exact List.mem_map.mpr ⟨v, List.mem_range.mpr hv, rfl⟩
      have hnd : (G.vertices.map (fun pr => pr.1)).Nodup := by
        rw [hGvert, List.map_map]
        show ((List.range g.vertices.length).map (fun i => i)).Nodup
        rw [List.map_id']
        exact List.nodup_range _
      have hfind : G.vertices.find? (fun pr => pr.1 == v)
          = some (v, mirrorV ((g.vertices.map (fun pr => pr.2)).getD v default)) :=
        find_by_key_eq (fun x => x.1) G.vertices _ hmem hnd
      unfold SkeletalGraph.getV
      rw [hfind]
      rfl
    have hvfin : (import_from_lines
        ([FileLine.scaleLine (some sc), FileLine.verticesOpen]
          ++ (g.vertices.map (fun pr => exportVertexLines pr.2)).flatten
          ++ [FileLine.verticesClose, FileLine.edgesOpen]
          ++ ebs.flatten ++ [FileLine.edgesClose]) emptyGraph).g.vertices
        = (List.range g.vertices.length).map
            (fun i => (i, mirrorV ((g.vertices.map (fun pr => pr.2)).getD i default))) := by
      rw [himpg, hfoldv, hGvert]
    have hefin : (import_from_lines
        ([FileLine.scaleLine (some sc), FileLine.verticesOpen]
          ++ (g.vertices.map (fun pr => exportVertexLines pr.2)).flatten
          ++ [FileLine.verticesClose, FileLine.edgesOpen]
          ++ ebs.flatten ++ [FileLine.edgesClose]) emptyGraph).g.edges
        = (List.range g.edges.length).map (fun i =>
            ⟨G.nextEdgeId + i,
             (List.range g.vertices.length).getD
               ((vidIndex g (g.edges.getD i default).src).getD 0) 0,
             (List.range g.vertices.length).getD
               ((vidIndex g (g.edges.getD i default).tgt).getD 0) 0,
             { curve := (curveFromDiscrete
                 ((g.edges.getD i default).prop.curve.map (fun pt => pt.1))).getD
                   defaultCurve,
               is_part_of_cycle :=
                 (G.getV ((List.range g.vertices.length).getD
                   ((vidIndex g (g.edges.getD i default).src).getD 0) 0)).is_part_of_cycle
                 && (G.getV ((List.range g.vertices.length).getD
                   ((vidIndex g (g.edges.getD i default).tgt).getD 0)
                     0)).is_part_of_cycle }⟩) := by
      rw [himpg, hfolde, hGedges, List.nil_append]
    refine ⟨⟨?_, ?_⟩, ?_, ?_⟩
    · unfold SkeletalGraph.vertex_count
      rw [hvfin, List.length_map, List.length_range]
    · intro k hk
      have hk' : k < g.vertices.length := hk
      rw [hvfin]
      rw [getD_map_range (default : ℕ × VertexProperties) g.vertices.length _ k hk']
      refine ⟨rfl, ?_, ?_, ?_⟩
      · show (mirrorV ((g.vertices.map (fun pr => pr.2)).getD k default)).position = _
        rw [getD_map (default : VertexProperties) (default : ℕ × VertexProperties)
          (fun pr => pr.2) g.vertices k hk']
        rfl
      · show (mirrorV ((g.vertices.map (fun pr => pr.2)).getD k default)).radius = _
        rw [getD_map (default : VertexProperties) (default : ℕ × VertexProperties)
          (fun pr => pr.2) g.vertices k hk']
        rfl
      · show (mirrorV ((g.vertices.map (fun pr => pr.2)).getD k default)).is_part_of_cycle
          = _
        rw [getD_map (default : VertexProperties) (default : ℕ × VertexProperties)
          (fun pr => pr.2) g.vertices k hk']
        rfl
    · unfold SkeletalGraph.edge_count
      rw [hefin, List.length_map, List.length_range]
    · intro k hk
      have hk' : k < g.edges.length := hk
      have hedmem : g.edges.getD k default ∈ g.edges := getD_mem g.edges k default hk'
      obtain ⟨prS, hprS, hprS1⟩ := List.mem_map.mp ((hWF.2.2.2.2 _ hedmem).1)
      obtain ⟨prT, hprT, hprT1⟩ := List.mem_map.mp ((hWF.2.2.2.2 _ hedmem).2)
      obtain ⟨si, hsi⟩ := findIdx_isSome
        (fun pr => pr.1 == (g.edges.getD k default).src) g.vertices
        ⟨prS, hprS, by simpa using hprS1⟩
      obtain ⟨ti, hti⟩ := findIdx_isSome
        (fun pr => pr.1 == (g.edges.getD k default).tgt) g.vertices
        ⟨prT, hprT, by simpa using hprT1⟩
      obtain ⟨hsilt, hsifind, _⟩ := findIdx_find (default : ℕ × VertexProperties)
        (fun pr => pr.1 == (g.edges.getD k default).src) g.vertices si hsi
      obtain ⟨htilt, htifind, _⟩ := findIdx_find (default : ℕ × VertexProperties)
        (fun pr => pr.1 == (g.edges.getD k default).tgt) g.vertices ti hti
      have hvidS : vidIndex g (g.edges.getD k default).src = some si := hsi
      have hvidT : vidIndex g (g.edges.getD k default).tgt = some ti := hti
      rw [hefin, getD_map_range (default : EdgeEntry) g.edges.length _ k hk']
      dsimp only
      refine ⟨si, ti, hvidS, hvidT, ?_, ?_, ?_, ?_⟩
      · rw [hvidS]
        show (List.range g.vertices.length).getD si 0 = si
        exact getD_range _ si hsilt
      · rw [hvidT]
        show (List.range g.vertices.length).getD ti 0 = ti
        exact getD_range _ ti htilt
      · obtain ⟨c, hcc, hcpos⟩ := curveFromDiscrete_spec
          ((g.edges.getD k default).prop.curve.map (fun pt => pt.1))
          (by rw [List.length_map]; exact hcur _ hedmem)
        rw [hcc]
        exact hcpos
      · rw [hvidS, hvidT]
        show ((G.getV ((List.range g.vertices.length).getD si 0)).is_part_of_cycle
          && (G.getV ((List.range g.vertices.length).getD ti 0)).is_part_of_cycle) = _
        rw [getD_range _ si hsilt, getD_range _ ti htilt]
        rw [hGids si hsilt, hGids ti htilt]
        rw [getD_map (default : VertexProperties) (default : ℕ × VertexProperties)
          (fun pr => pr.2) g.vertices si hsilt,
          getD_map (default : VertexProperties) (default : ℕ × VertexProperties)
          (fun pr => pr.2) g.vertices ti htilt]
        have hgetvS : g.getV (g.edges.getD k default).src
            = (g.vertices.getD si (default : ℕ × VertexProperties)).2 := by
          unfold SkeletalGraph.getV
          rw [hsifind]
          rfl
        have hgetvT : g.getV (g.edges.getD k default).tgt
            = (g.vertices.getD ti (default : ℕ × VertexProperties)).2 := by
          unfold SkeletalGraph.getV
          rw [htifind]
          rfl
        rw [hgetvS, hgetvT]
        rfl

/-- Two cycle-marked vertices joined by an edge whose own cycle flag is
false. -/
def C6graph : SkeletalGraph :=
  { nextVertexId := 2, nextEdgeId := 1,
    vertices := [(0, { is_part_of_cycle := true }),
                 (1, { position := (1, 0, 0), is_part_of_cycle := true })],
    edges := [⟨0, 0, 1,
      { curve := [((0, 0, 0), (1, 0, 0)), ((1, 0, 0), (1, 0, 0))],
        is_part_of_cycle := false }⟩],
    edge_spline_count := 2 }

/-- C6 counterexample: the exported edge carries cycle flag 0, but the
re-imported edge carries flag true, because the import's `add_edge`
overwrites the parsed flag with the AND of the endpoint vertices' flags
(both true here, source line 435). -/
theorem claim_C6_counterexample :
    ∃ lines, export_to_lines C6graph 1 = some lines ∧
      (C6graph.edges.getD 0 default).prop.is_part_of_cycle = false ∧
      ((import_from_lines lines emptyGraph).g.edges.getD 0 default).prop.is_part_of_cycle
        = true :=
  ⟨_, rfl, rfl, rfl⟩

theorem claim_C6_witness :
    WF C6graph ∧ (∀ ed ∈ C6graph.edges, 2 ≤ ed.prop.curve.length) ∧
      export_to_lines C6graph 1 = some ((export_to_lines C6graph 1).getD []) ∧
      (import_from_lines ((export_to_lines C6graph 1).getD []) emptyGraph).g.vertex_count
        = C6graph.vertex_count :=
  ⟨by decide, by decide, rfl,
   ((claim_C6_export_import_roundtrip C6graph 1 ((export_to_lines C6graph 1).getD [])
      (by decide) (by decide) rfl).1).1⟩

end PantaGraph
